import Mathlib

/-!
# Verification of `recognizeExp.c`

A shallow embedding of the recogniser of `recognizeExp.c` and theorems about it.

* A token list (`List` in the C source, a pointer to a `ListNode`) is a Lean list of
  tokens; the null pointer is `[]`, and `(*lp)->next` is the tail.
* A function `int f(List *lp)` that advances `*lp` becomes a function returning the
  `int` result together with the new value of `*lp`.
* The C `int` results 1 / 0 are kept as integers.
* The loop counters `equalCount` and `numVar` are unbounded integers here: they count
  nodes of a list held in memory and stay far below `2^31`.
-/

namespace RecognizeExp

/-! ## Data model -/

/-- The tag `tt` of a token. -/
inductive TokenType where
  | Number
  | Identifier
  | Symbol
  deriving DecidableEq, Repr

/-- Modelled from the spec: the token node of the scanner (`scanner.h`, which declares
it, is not among the sources). The spec describes a token as a kind (`tt`) with one
payload (`t`) that is a numeric value, a name or a single character. The source reads
that payload through the members `t.number`, `t.identifier` and `t.symbol`, and
`countEquals` and `isDegree` read `t.symbol` on tokens of every kind, without looking at
`tt`. Each member read is therefore a field, defined on every token: for a token made by
the scanner the field that matches `tt` holds the payload, and the other two hold what
the storage of the payload reads as through them. -/
structure Token where
  tt : TokenType
  number : Int
  identifier : String
  symbol : Char
  deriving DecidableEq, Repr

/-- The C type `List`: the rest of the token list from the cursor on (`[]` is `NULL`). -/
abbrev TokenList := List Token

/-- Modelled from the spec: a `Number` token with value `n` as the scanner stores it.
The members of `t` share the storage of the one payload, so `t.symbol` reads the first
byte of the `int` written through `t.number`: `n % 256` where the least significant byte
comes first. -/
def mkNumber (n : Nat) : Token :=
  { tt := TokenType.Number, number := n, identifier := "", symbol := Char.ofNat (n % 256) }

/-- Modelled from the spec: an `Identifier` token as the scanner stores it. The payload is
a pointer to the name; what it reads as through `t.symbol` and `t.number` depends on the
address and is taken to be 0 (the functions below compare the `t.symbol` of such a token
only with `=` and `^`). -/
def mkIdentifier (s : String) : Token :=
  { tt := TokenType.Identifier, number := 0, identifier := s, symbol := Char.ofNat 0 }

/-- Modelled from the spec: a `Symbol` token as the scanner stores it, the payload being
the character. -/
def mkSymbol (c : Char) : Token :=
  { tt := TokenType.Symbol, number := c.toNat, identifier := "", symbol := c }

/-! ## Atomic acceptors -/

/-- `acceptNumber`: 1 and the rest of the list when the first token is a number,
otherwise 0 and the list unchanged. -/
def acceptNumber (lp : TokenList) : Int × TokenList :=
  match lp with
  | tok :: next => if tok.tt = TokenType.Number then (1, next) else (0, lp)
  | [] => (0, lp)

/-- `acceptIdentifier`: the same for an identifier. -/
def acceptIdentifier (lp : TokenList) : Int × TokenList :=
  match lp with
  | tok :: next => if tok.tt = TokenType.Identifier then (1, next) else (0, lp)
  | [] => (0, lp)

/-- `acceptCharacter`: the same for the symbol with character `c`. -/
def acceptCharacter (lp : TokenList) (c : Char) : Int × TokenList :=
  match lp with
  | tok :: next =>
    if tok.tt = TokenType.Symbol ∧ tok.symbol = c then (1, next) else (0, lp)
  | [] => (0, lp)

/-! ## Terms -/

/-- `acceptTerm`: `caseType` counts the parts recognised; the result is 1 when it is
positive. `a && b` evaluates `b` only when `a` is not 0. -/
def acceptTerm (lp : TokenList) : Int × TokenList :=
  let n := acceptNumber lp
  let st : Int × TokenList :=
    if n.1 ≠ 0 then
      let i := acceptIdentifier n.2
      if i.1 ≠ 0 then
        let c := acceptCharacter i.2 '^'
        if c.1 ≠ 0 then
          let e := acceptNumber c.2
          if e.1 ≠ 0 then (3, e.2) else (2, e.2)
        else (2, c.2)
      else (1, i.2)
    else
      let i := acceptIdentifier n.2
      if i.1 ≠ 0 then
        let c := acceptCharacter i.2 '^'
        if c.1 ≠ 0 then
          let e := acceptNumber c.2
          if e.1 ≠ 0 then (2, e.2) else (1, e.2)
        else (1, c.2)
      else (0, i.2)
  if st.1 > 0 then (1, st.2) else (0, st.2)

/-! ## Expressions and equations -/

/-- The condition of the `while` loop of `acceptExpression`,
`acceptCharacter(lp,'+') || acceptCharacter(lp,'-')`: the second call is made only when
the first returns 0. -/
def acceptPlusOrMinus (lp : TokenList) : Int × TokenList :=
  let p := acceptCharacter lp '+'
  if p.1 ≠ 0 then p else acceptCharacter p.2 '-'

/-- The `while` loop of `acceptExpression`: as long as a `+` or a `-` is accepted a term
must follow, otherwise the result is 0; the loop ends with 1 at the first token that is
neither. -/
def acceptExpressionLoop (lp : TokenList) : Int × TokenList :=
  let op := acceptPlusOrMinus lp
  if _h : op.1 ≠ 0 then
    let t := acceptTerm op.2
    if t.1 = 0 then (0, t.2) else acceptExpressionLoop t.2
  else (1, op.2)
termination_by lp.length
decreasing_by
  have hn : ∀ l : TokenList, (acceptNumber l).2.length ≤ l.length := by
    intro l
    cases l with
    | nil => simp [acceptNumber]
    | cons a l => simp only [acceptNumber]; split_ifs <;> simp
  have hi : ∀ l : TokenList, (acceptIdentifier l).2.length ≤ l.length := by
    intro l
    cases l with
    | nil => simp [acceptIdentifier]
    | cons a l => simp only [acceptIdentifier]; split_ifs <;> simp
  have hc : ∀ (l : TokenList) (c : Char), (acceptCharacter l c).2.length ≤ l.length := by
    intro l c
    cases l with
    | nil => simp [acceptCharacter]
    | cons a l => simp only [acceptCharacter]; split_ifs <;> simp
  have h1 : ∀ l : TokenList, (acceptPlusOrMinus l).1 ≠ 0 →
      (acceptPlusOrMinus l).2.length < l.length := by
    intro l
    cases l with
    | nil => simp [acceptPlusOrMinus, acceptCharacter]
    | cons a l =>
      by_cases hp : a.tt = TokenType.Symbol ∧ a.symbol = '+'
      · simp [acceptPlusOrMinus, acceptCharacter, hp]
      · by_cases hm : a.tt = TokenType.Symbol ∧ a.symbol = '-'
        · simp [acceptPlusOrMinus, acceptCharacter, hp, hm]
        · simp [acceptPlusOrMinus, acceptCharacter, hp, hm]
  have h2 : ∀ l : TokenList, (acceptTerm l).2.length ≤ l.length := by
    intro l
    have a1 := hn l
    have a2 := le_trans (hi (acceptNumber l).2) a1
    have a3 := le_trans (hc (acceptIdentifier (acceptNumber l).2).2 '^') a2
    have a4 := le_trans (hn (acceptCharacter (acceptIdentifier (acceptNumber l).2).2 '^').2) a3
    unfold acceptTerm
    simp only []
    split_ifs <;> first | exact a1 | exact a2 | exact a3 | exact a4
  exact lt_of_le_of_lt (h2 _) (h1 lp _h)

/-- `acceptExpression`: an attempt at a leading `-` whose result is not looked at, one
term, then the loop. -/
def acceptExpression (lp : TokenList) : Int × TokenList :=
  let m := acceptCharacter lp '-'
  let t := acceptTerm m.2
  if t.1 = 0 then (0, t.2) else acceptExpressionLoop t.2

/-- The `while` loop of `countEquals`: every node is visited, and `equalCount` goes up
at each node whose `t.symbol` reads `=` (the tag `tt` is not looked at). -/
def countEqualsLoop (equalCount : Int) : TokenList → Int × TokenList
  | [] => (equalCount, [])
  | tok :: next =>
    countEqualsLoop (if tok.symbol = '=' then equalCount + 1 else equalCount) next

/-- `countEquals`: 1 when the loop counted exactly one, otherwise 0. -/
def countEquals (lp : TokenList) : Int × TokenList :=
  let r := countEqualsLoop 0 lp
  (if r.1 = 1 then 1 else 0, r.2)

/-- `acceptEquation` with the working cursor `lp` and the cursor `lp1` given to
`countEquals`; the result is the `int` and the two cursors afterwards. -/
def acceptEquation (lp lp1 : TokenList) : Int × TokenList × TokenList :=
  let n := countEquals lp1
  if n.1 = 0 then (0, lp, n.2)
  else
    let e1 := acceptExpression lp
    if e1.1 = 0 then (0, e1.2, n.2)
    else
      let c := acceptCharacter e1.2 '='
      if c.1 = 0 then (0, c.2, n.2)
      else
        let e2 := acceptExpression c.2
        if e2.1 = 0 then (0, e2.2, n.2)
        else if e2.2 ≠ [] then (0, e2.2, n.2)
        else (1, e2.2, n.2)

/-! ## Variables -/

/-- Modelled from the spec: the scanner function `tokenList` (`scanner.c` is not among the
sources) on the text of an identifier, the only use `acceptVariables` makes of it: the
list of the one identifier token with that name, so that `tempList->t.identifier` is the
first identifier name seen. -/
def tokenListOfIdentifier (s : String) : TokenList := [mkIdentifier s]

/-- The `while` loop of `acceptVariables` on the state `same`, `numVar`, `tempList`;
`break` leaves the cursor on the identifier that differs. `strcmp(a, b) == 0` is
equality of the names. -/
def acceptVariablesLoop (same numVar : Int) (tempList : TokenList) :
    TokenList → Int × Int × TokenList
  | [] => (same, numVar, [])
  | tok :: next =>
    if tok.tt = TokenType.Identifier then
      match tempList with
      | [] =>
        acceptVariablesLoop same (numVar + 1) (tokenListOfIdentifier tok.identifier) next
      | first :: _ =>
        if first.identifier = tok.identifier then
          acceptVariablesLoop 1 (numVar + 1) tempList next
        else (0, numVar + 1, tok :: next)
    else acceptVariablesLoop same numVar tempList next

/-- `acceptVariables`: `same` when an identifier was seen, otherwise 0. -/
def acceptVariables (lp : TokenList) : Int × TokenList :=
  let r := acceptVariablesLoop 1 0 [] lp
  (if r.2.1 > 0 then r.1 else 0, r.2.2)

/-! ## Degree -/

/-- `isDegree`: at a node whose `t.symbol` reads `^` the cursor moves on and the node
there must exist and be a number, and `acceptCharacter(lp,'-')` must fail; then, and at
every other node, the cursor moves on. After a failed `acceptCharacter` the cursor is
still on the number, so the last `match` never meets `[]`. -/
def isDegree (lp : TokenList) : Int × TokenList :=
  match lp with
  | [] => (1, [])
  | tok :: next =>
    if tok.symbol = '^' then
      match next with
      | [] => (0, [])
      | e :: after =>
        if e.tt ≠ TokenType.Number then (0, e :: after)
        else
          let m := acceptCharacter (e :: after) '-'
          if m.1 ≠ 0 then (0, m.2)
          else
            match _h : m.2 with
            | [] => (0, [])
            | _ :: rest => isDegree rest
    else isDegree next
termination_by lp.length
decreasing_by
  · have h2 : ∀ (l : TokenList) (c : Char), (acceptCharacter l c).2.length ≤ l.length := by
      intro l c
      cases l with
      | nil => simp [acceptCharacter]
      | cons a l => simp only [acceptCharacter]; split_ifs <;> simp
    have h3 := h2 (e :: after) '-'
    have _h : (acceptCharacter (e :: after) '-').2 = _ :: rest := _h
    rw [_h] at h3
    simp only [List.length_cons] at h3 ⊢
    omega
  · simp

/-- The body of the `while` loop of `checkDegree` up to the final step of the cursor:
the new `highest`, `counter` and cursor, or `none` when `((*lp)->t).number` is read
at the end of the list. -/
def checkDegreeBody (highest counter : Int) (lp : TokenList) :
    Option (Int × Int × TokenList) :=
  let i := acceptIdentifier lp
  if i.1 ≠ 0 then
    if i.2 ≠ [] then
      let c := acceptCharacter i.2 '^'
      if c.1 ≠ 0 then
        match c.2 with
        | [] => none
        | e :: _ =>
          if counter = 0 then some (e.number, 1, c.2)
          else if e.number > highest then some (e.number, 1, c.2)
          else some (highest, 1, c.2)
      else some (highest, 1, c.2)
    else some (highest, counter, i.2)
  else some (highest, counter, i.2)

/-- The `while` loop of `checkDegree`; after the body the cursor moves on when it is
not at the end (`List.tail`). -/
def checkDegreeLoop (highest counter : Int) (lp : TokenList) : Option (Int × TokenList) :=
  match lp with
  | [] => some (highest, [])
  | tok :: next =>
    match _h : checkDegreeBody highest counter (tok :: next) with
    | none => none
    | some (highest1, counter1, lp1) => checkDegreeLoop highest1 counter1 lp1.tail
termination_by lp.length
decreasing_by
  have h1 : ∀ l : TokenList, (acceptIdentifier l).2.length ≤ l.length := by
    intro l
    cases l with
    | nil => simp [acceptIdentifier]
    | cons a l => simp only [acceptIdentifier]; split_ifs <;> simp
  have h2 : ∀ (l : TokenList) (c : Char), (acceptCharacter l c).2.length ≤ l.length := by
    intro l c
    cases l with
    | nil => simp [acceptCharacter]
    | cons a l => simp only [acceptCharacter]; split_ifs <;> simp
  have h3 : ∀ (h c : Int) (l : TokenList) (r : Int × Int × TokenList),
      checkDegreeBody h c l = some r → r.2.2.length ≤ l.length := by
    intro h c l r hr
    have h12 := le_trans (h2 (acceptIdentifier l).2 '^') (h1 l)
    unfold checkDegreeBody at hr
    simp only [] at hr
    split_ifs at hr
    · split at hr
      · cases hr
      · cases hr; exact h12
    · split at hr
      · cases hr
      · split_ifs at hr <;> cases hr <;> exact h12
    · cases hr; exact h12
    · cases hr; exact h1 l
    · cases hr; exact h1 l
  have h4 := h3 _ _ _ _ _h
  have h5 : lp1.tail.length < (tok :: next).length := by
    simp only [List.length_cons, List.length_tail] at h4 ⊢
    omega
  exact h5

/-- `checkDegree`: the highest degree found and the cursor afterwards, or `none` when
the run reads past the end of the list. -/
def checkDegree (lp : TokenList) : Option (Int × TokenList) :=
  checkDegreeLoop 1 0 lp

/-- The cursor at which one pass through the body of the `while` loop of `checkDegree`
reads `((*lp)->t).number`, when it reads it: after `acceptIdentifier` has succeeded, the
cursor is not at the end, and `acceptCharacter(lp,'^')` has succeeded. -/
def checkDegreeRead (lp : TokenList) : Option TokenList :=
  let i := acceptIdentifier lp
  if i.1 ≠ 0 then
    if i.2 ≠ [] then
      let c := acceptCharacter i.2 '^'
      if c.1 ≠ 0 then some c.2 else none
    else none
  else none

/-- The run of the `while` loop of `checkDegree`, pass by pass: the cursor at the start
of each pass, with the cursor at which that pass reads `number` when it does. The run
stops with the loop, or with the pass that reads at the end of the list. -/
def checkDegreeTrace (highest counter : Int) (lp : TokenList) :
    List (TokenList × Option TokenList) :=
  match lp with
  | [] => []
  | tok :: next =>
    (tok :: next, checkDegreeRead (tok :: next)) ::
      match _h : checkDegreeBody highest counter (tok :: next) with
      | none => []
      | some (highest1, counter1, lp1) => checkDegreeTrace highest1 counter1 lp1.tail
termination_by lp.length
decreasing_by
  have h1 : ∀ l : TokenList, (acceptIdentifier l).2.length ≤ l.length := by
    intro l
    cases l with
    | nil => simp [acceptIdentifier]
    | cons a l => simp only [acceptIdentifier]; split_ifs <;> simp
  have h2 : ∀ (l : TokenList) (c : Char), (acceptCharacter l c).2.length ≤ l.length := by
    intro l c
    cases l with
    | nil => simp [acceptCharacter]
    | cons a l => simp only [acceptCharacter]; split_ifs <;> simp
  have h3 : ∀ (h c : Int) (l : TokenList) (r : Int × Int × TokenList),
      checkDegreeBody h c l = some r → r.2.2.length ≤ l.length := by
    intro h c l r hr
    have h12 := le_trans (h2 (acceptIdentifier l).2 '^') (h1 l)
    unfold checkDegreeBody at hr
    simp only [] at hr
    split_ifs at hr
    · split at hr
      · cases hr
      · cases hr; exact h12
    · split at hr
      · cases hr
      · split_ifs at hr <;> cases hr <;> exact h12
    · cases hr; exact h12
    · cases hr; exact h1 l
    · cases hr; exact h1 l
  have h4 := h3 _ _ _ _ _h
  have h5 : lp1.tail.length < (tok :: next).length := by
    simp only [List.length_cons, List.length_tail] at h4 ⊢
    omega
  exact h5

/-! ## Classification of one line -/

/-- What `recognizeEquation` prints for one line: `this is not an equation`,
`this is an equation, but not in 1 variable`, or
`this is an equation in 1 variable of degree` followed by the degree. -/
inductive Verdict where
  | notEquation
  | notOneVariable
  | oneVariable (degree : Int)
  deriving DecidableEq, Repr

/-- The body of the `while` loop of `recognizeEquation` on the token list `tl` of one
line, without the input and output: `tl1`, `tl2` and `tl3` all start at `tl`, and `tl1`
is set back to `tl` before `acceptVariables` and before `checkDegree`. The result is
`none` when `checkDegree` reads past the end of the list. -/
def recognizeEquationLine (tl : TokenList) : Option Verdict :=
  if (acceptEquation tl tl).1 = 0 then some Verdict.notEquation
  else if (isDegree tl).1 = 0 then some Verdict.notEquation
  else if (acceptVariables tl).1 ≠ 0 then
    match checkDegree tl with
    | none => none
    | some r => some (Verdict.oneVariable r.1)
  else some Verdict.notOneVariable

/-! ## Variants named in the statements -/

/-- The variant of `isDegree` in which the disjunct `acceptCharacter(lp,'-')` is deleted
from the test after a `^`. -/
def isDegreeWithoutSignCheck : TokenList → Int × TokenList
  | [] => (1, [])
  | tok :: next =>
    if tok.symbol = '^' then
      match next with
      | [] => (0, [])
      | e :: after =>
        if e.tt ≠ TokenType.Number then (0, e :: after)
        else isDegreeWithoutSignCheck after
    else isDegreeWithoutSignCheck next

/-- The variant of `acceptEquation` without the `countEquals` check: the working cursor
alone. -/
def acceptEquationWithoutCount (lp : TokenList) : Int × TokenList :=
  let e1 := acceptExpression lp
  if e1.1 = 0 then (0, e1.2)
  else
    let c := acceptCharacter e1.2 '='
    if c.1 = 0 then (0, c.2)
    else
      let e2 := acceptExpression c.2
      if e2.1 = 0 then (0, e2.2)
      else if e2.2 ≠ [] then (0, e2.2)
      else (1, e2.2)

/-! ## Notions used in the statements -/

/-- The token is the symbol `+` or the symbol `-`. -/
def IsOperator (tok : Token) : Prop :=
  tok.tt = TokenType.Symbol ∧ (tok.symbol = '+' ∨ tok.symbol = '-')

instance decIsOperator (tok : Token) : Decidable (IsOperator tok) :=
  inferInstanceAs (Decidable (tok.tt = TokenType.Symbol ∧ (tok.symbol = '+' ∨ tok.symbol = '-')))

/-- The token at the cursor exists and is a Number or an Identifier. -/
def StartsTerm : TokenList → Prop
  | [] => False
  | tok :: _ => tok.tt = TokenType.Number ∨ tok.tt = TokenType.Identifier

instance decStartsTerm : (lp : TokenList) → Decidable (StartsTerm lp)
  | [] => inferInstanceAs (Decidable False)
  | tok :: _ =>
    inferInstanceAs (Decidable (tok.tt = TokenType.Number ∨ tok.tt = TokenType.Identifier))

/-- The token at the cursor exists and is the symbol `+` or the symbol `-`. -/
def StartsOperator : TokenList → Prop
  | [] => False
  | tok :: _ => IsOperator tok

instance decStartsOperator : (lp : TokenList) → Decidable (StartsOperator lp)
  | [] => inferInstanceAs (Decidable False)
  | tok :: _ => inferInstanceAs (Decidable (IsOperator tok))

/-- The token at the cursor exists and is the symbol with character `c`. -/
def StartsSymbol (c : Char) : TokenList → Prop
  | [] => False
  | tok :: _ => tok.tt = TokenType.Symbol ∧ tok.symbol = c

instance decStartsSymbol (c : Char) : (lp : TokenList) → Decidable (StartsSymbol c lp)
  | [] => inferInstanceAs (Decidable False)
  | tok :: _ => inferInstanceAs (Decidable (tok.tt = TokenType.Symbol ∧ tok.symbol = c))

/-- The number of Symbol tokens with character `c` in the stream. -/
def countSymbol (c : Char) (ts : TokenList) : Nat :=
  ts.countP (fun tok => decide (tok.tt = TokenType.Symbol ∧ tok.symbol = c))

/-- The number of tokens of the stream whose payload reads `c` through `t.symbol`,
whatever their kind. -/
def countSymbolRead (c : Char) (ts : TokenList) : Nat :=
  ts.countP (fun tok => decide (tok.symbol = c))

/-- The tokens of `x+`. -/
def tokensXPlus : TokenList := [mkIdentifier "x", mkSymbol '+']

/-- The tokens of `x=1=2`. -/
def tokensXEq1Eq2 : TokenList :=
  [mkIdentifier "x", mkSymbol '=', mkNumber 1, mkSymbol '=', mkNumber 2]

/-- The tokens of `1=61`. -/
def tokens1Eq61 : TokenList := [mkNumber 1, mkSymbol '=', mkNumber 61]

/-- The tokens of `1=94`. -/
def tokens1Eq94 : TokenList := [mkNumber 1, mkSymbol '=', mkNumber 94]

/-- The names of the Identifier tokens of the stream, in order. -/
def identifierNames : TokenList → List String
  | [] => []
  | tok :: next =>
    if tok.tt = TokenType.Identifier then tok.identifier :: identifierNames next
    else identifierNames next

/-- The token at the cursor exists and is a Number. -/
def StartsNumber : TokenList → Prop
  | [] => False
  | tok :: _ => tok.tt = TokenType.Number

instance decStartsNumber : (lp : TokenList) → Decidable (StartsNumber lp)
  | [] => inferInstanceAs (Decidable False)
  | tok :: _ => inferInstanceAs (Decidable (tok.tt = TokenType.Number))

/-- Every `^` symbol token of the stream is immediately followed by a token, and that
token is a Number. -/
def ExponentsWellFormed : TokenList → Prop
  | [] => True
  | tok :: next =>
    ((tok.tt = TokenType.Symbol ∧ tok.symbol = '^') → StartsNumber next)
      ∧ ExponentsWellFormed next

instance decExponentsWellFormed : (ts : TokenList) → Decidable (ExponentsWellFormed ts)
  | [] => inferInstanceAs (Decidable True)
  | tok :: next =>
    have := decExponentsWellFormed next
    inferInstanceAs (Decidable
      (((tok.tt = TokenType.Symbol ∧ tok.symbol = '^') → StartsNumber next)
        ∧ ExponentsWellFormed next))

/-- No Number or Identifier token of the stream reads `=` or `^` through `t.symbol`. -/
def SymbolReadsClean (ts : TokenList) : Prop :=
  ∀ tok ∈ ts, tok.symbol = '=' ∨ tok.symbol = '^' → tok.tt = TokenType.Symbol

instance decSymbolReadsClean (ts : TokenList) : Decidable (SymbolReadsClean ts) :=
  inferInstanceAs (Decidable
    (∀ tok ∈ ts, tok.symbol = '=' ∨ tok.symbol = '^' → tok.tt = TokenType.Symbol))

/-- The tokens of `x+y=1`. -/
def tokensXPlusYEq1 : TokenList :=
  [mkIdentifier "x", mkSymbol '+', mkIdentifier "y", mkSymbol '=', mkNumber 1]

/-! ## The grammar of the specification -/

/-- A monomial of the grammar: number; identifier; number identifier;
identifier `^` number; number identifier `^` number. -/
inductive Monomial : TokenList → Prop
  | number (n : Token) : n.tt = TokenType.Number → Monomial [n]
  | identifier (x : Token) : x.tt = TokenType.Identifier → Monomial [x]
  | numberIdentifier (n x : Token) :
      n.tt = TokenType.Number → x.tt = TokenType.Identifier → Monomial [n, x]
  | identifierPower (x c e : Token) :
      x.tt = TokenType.Identifier → c.tt = TokenType.Symbol → c.symbol = '^' →
      e.tt = TokenType.Number → Monomial [x, c, e]
  | numberIdentifierPower (n x c e : Token) :
      n.tt = TokenType.Number → x.tt = TokenType.Identifier → c.tt = TokenType.Symbol →
      c.symbol = '^' → e.tt = TokenType.Number → Monomial [n, x, c, e]

/-- The repetition `{ ('+' | '-') Monomial }` of the grammar. -/
inductive MonomialTail : TokenList → Prop
  | nil : MonomialTail []
  | cons (op : Token) (m rest : TokenList) :
      IsOperator op → Monomial m → MonomialTail rest → MonomialTail (op :: (m ++ rest))

/-- `Expression ::= ['-'] Monomial { ('+' | '-') Monomial }`. -/
inductive Expression : TokenList → Prop
  | plain (m tl : TokenList) : Monomial m → MonomialTail tl → Expression (m ++ tl)
  | negated (s : Token) (m tl : TokenList) :
      s.tt = TokenType.Symbol → s.symbol = '-' → Monomial m → MonomialTail tl →
      Expression (s :: (m ++ tl))

/-- `Equation ::= Expression '=' Expression`. -/
inductive Equation : TokenList → Prop
  | mk (l : TokenList) (eq : Token) (r : TokenList) :
      Expression l → eq.tt = TokenType.Symbol → eq.symbol = '=' → Expression r →
      Equation (l ++ eq :: r)

/-- The cursor is at the end or on a Symbol token. -/
def StartsSymbolOrEnd : TokenList → Prop
  | [] => True
  | tok :: _ => tok.tt = TokenType.Symbol

/-- Every Identifier token of the stream is the last token or is followed by a Symbol
token. -/
def IdentifiersSeparated : TokenList → Prop
  | [] => True
  | tok :: next =>
    (tok.tt = TokenType.Identifier → StartsSymbolOrEnd next) ∧ IdentifiersSeparated next

/-- The cursor is at the end or on a Symbol token other than `^`. -/
def StartsSeparatorOrEnd : TokenList → Prop
  | [] => True
  | tok :: _ => tok.tt = TokenType.Symbol ∧ tok.symbol ≠ '^'

/-- The tokens of `x+3=7`. -/
def tokensXPlus3Eq7 : TokenList :=
  [mkIdentifier "x", mkSymbol '+', mkNumber 3, mkSymbol '=', mkNumber 7]

/-! ## The degree, as the statements describe it -/

/-- The exponent that follows an identifier whose successors are `next`: the number
stored in the token after a `^` symbol, when `next` starts with a `^` symbol and a
further token. -/
def exponentAt : TokenList → Option Int
  | c :: e :: _ => if c.tt = TokenType.Symbol ∧ c.symbol = '^' then some e.number else none
  | _ => none

/-- For every Identifier token of the stream, in order, the exponent attached to it by
`^`, or `none` when it has none. -/
def identifierExponents : TokenList → List (Option Int)
  | [] => []
  | tok :: next =>
    if tok.tt = TokenType.Identifier then exponentAt next :: identifierExponents next
    else identifierExponents next

/-- The degree as the claim words it: the maximum of the exponents attached to
identifiers, the first one taken as it is; 1 when there is none. -/
def claimedDegree (ts : TokenList) : Int :=
  match (identifierExponents ts).reduceOption with
  | [] => 1
  | e :: rest => rest.foldl max e

/-- The degree as the code computes it on a validated equation: when the first
identifier carries an exponent, the maximum of all exponents attached to identifiers;
otherwise the maximum of 1 and all those exponents. -/
def degreeOf (ts : TokenList) : Int :=
  match identifierExponents ts with
  | [] => 1
  | some e :: rest => rest.reduceOption.foldl max e
  | none :: rest => rest.reduceOption.foldl max 1

/-- The tokens of `x^2+x=0`. -/
def tokensXSq : TokenList :=
  [mkIdentifier "x", mkSymbol '^', mkNumber 2, mkSymbol '+', mkIdentifier "x", mkSymbol '=',
    mkNumber 0]

/-- The tokens of `x+x^0=1`. -/
def tokensXPlusXPow0 : TokenList :=
  [mkIdentifier "x", mkSymbol '+', mkIdentifier "x", mkSymbol '^', mkNumber 0, mkSymbol '=',
    mkNumber 1]

/-! ## Further notions and streams used in the statements -/

/-- The stream ends in an Identifier token followed by a `^` symbol token. -/
def EndsWithIdentifierCaret : TokenList → Prop
  | [] => False
  | [_] => False
  | [x, c] => x.tt = TokenType.Identifier ∧ c.tt = TokenType.Symbol ∧ c.symbol = '^'
  | _ :: b :: c :: rest => EndsWithIdentifierCaret (b :: c :: rest)

instance decEndsWithIdentifierCaret :
    (lp : TokenList) → Decidable (EndsWithIdentifierCaret lp)
  | [] => inferInstanceAs (Decidable False)
  | [_] => inferInstanceAs (Decidable False)
  | [x, c] =>
    inferInstanceAs (Decidable
      (x.tt = TokenType.Identifier ∧ c.tt = TokenType.Symbol ∧ c.symbol = '^'))
  | _ :: b :: c :: rest => decEndsWithIdentifierCaret (b :: c :: rest)

/-- The exponents attached by `^` to the identifiers of the stream, in order. -/
def attachedExponents (ts : TokenList) : List Int :=
  (identifierExponents ts).reduceOption

/-- The tokens of `x^2-4=0`. -/
def tokensXSqMinus4 : TokenList :=
  [mkIdentifier "x", mkSymbol '^', mkNumber 2, mkSymbol '-', mkNumber 4, mkSymbol '=',
    mkNumber 0]

/-- The tokens of `x+y=5`. -/
def tokensXPlusYEq5 : TokenList :=
  [mkIdentifier "x", mkSymbol '+', mkIdentifier "y", mkSymbol '=', mkNumber 5]

/-- The tokens of `3+4`. -/
def tokens3Plus4 : TokenList := [mkNumber 3, mkSymbol '+', mkNumber 4]

/-- The tokens of `x^`. -/
def tokensXCaret : TokenList := [mkIdentifier "x", mkSymbol '^']

/-- The tokens of `3x^`. -/
def tokens3XCaret : TokenList := [mkNumber 3, mkIdentifier "x", mkSymbol '^']

/-! ## The repetition of `acceptExpression`, as the statements describe it -/

/-- From the cursor `a`, accepting zero or more times a `+` or `-` followed by a term
that `acceptTerm` accepts leads to the cursor `b`. -/
inductive OperatorTerms : TokenList → TokenList → Prop
  | done (a : TokenList) : OperatorTerms a a
  | step (op : Token) (next b : TokenList) :
      IsOperator op → (acceptTerm next).1 = 1 → OperatorTerms (acceptTerm next).2 b →
      OperatorTerms (op :: next) b

/-- The tokens of `x+3`. -/
def tokensXPlus3 : TokenList := [mkIdentifier "x", mkSymbol '+', mkNumber 3]

/-! ## Atomic acceptors: theorems -/

theorem acceptNumber_cons (tok : Token) (next : TokenList) :
    acceptNumber (tok :: next)
      = if tok.tt = TokenType.Number then (1, next) else (0, tok :: next) := rfl

theorem acceptIdentifier_cons (tok : Token) (next : TokenList) :
    acceptIdentifier (tok :: next)
      = if tok.tt = TokenType.Identifier then (1, next) else (0, tok :: next) := rfl

theorem acceptCharacter_cons (tok : Token) (next : TokenList) (c : Char) :
    acceptCharacter (tok :: next) c
      = if tok.tt = TokenType.Symbol ∧ tok.symbol = c then (1, next)
        else (0, tok :: next) := rfl

/-- C1: each atomic acceptor returns 1 with the cursor moved to the next token when the
token at the cursor exists and is a Number, an Identifier, or the Symbol with character
`c` respectively; in every other case, the empty list included, it returns 0 and the
cursor is the one it was given. -/
theorem atomic_acceptors_contract (lp : TokenList) (c : Char) :
    ((∃ tok next, lp = tok :: next ∧ tok.tt = TokenType.Number ∧
          acceptNumber lp = (1, next))
      ∨ ((¬ ∃ tok next, lp = tok :: next ∧ tok.tt = TokenType.Number) ∧
          acceptNumber lp = (0, lp)))
    ∧ ((∃ tok next, lp = tok :: next ∧ tok.tt = TokenType.Identifier ∧
          acceptIdentifier lp = (1, next))
      ∨ ((¬ ∃ tok next, lp = tok :: next ∧ tok.tt = TokenType.Identifier) ∧
          acceptIdentifier lp = (0, lp)))
    ∧ ((∃ tok next, lp = tok :: next ∧ tok.tt = TokenType.Symbol ∧ tok.symbol = c ∧
          acceptCharacter lp c = (1, next))
      ∨ ((¬ ∃ tok next, lp = tok :: next ∧ tok.tt = TokenType.Symbol ∧ tok.symbol = c) ∧
          acceptCharacter lp c = (0, lp))) := by
  cases lp with
  | nil => simp [acceptNumber, acceptIdentifier, acceptCharacter]
  | cons tok next =>
    refine ⟨?_, ?_, ?_⟩
    · by_cases h : tok.tt = TokenType.Number
      · left; exact ⟨tok, next, rfl, h, by simp [acceptNumber_cons, h]⟩
      · right; exact ⟨by simp [h], by simp [acceptNumber_cons, h]⟩
    · by_cases h : tok.tt = TokenType.Identifier
      · left; exact ⟨tok, next, rfl, h, by simp [acceptIdentifier_cons, h]⟩
      · right; exact ⟨by simp [h], by simp [acceptIdentifier_cons, h]⟩
    · by_cases h : tok.tt = TokenType.Symbol ∧ tok.symbol = c
      · left; exact ⟨tok, next, rfl, h.1, h.2, by simp [acceptCharacter_cons, h]⟩
      · right
        refine ⟨?_, by simp [acceptCharacter_cons, h]⟩
        rintro ⟨t, n, heq, h1, h2⟩
        cases heq
        exact h ⟨h1, h2⟩

/-! ## Terms: theorems -/

theorem acceptTerm_nil : acceptTerm [] = (0, []) := by
  simp [acceptTerm, acceptNumber, acceptIdentifier]

theorem acceptTerm_symbol (tok : Token) (next : TokenList) (h : tok.tt = TokenType.Symbol) :
    acceptTerm (tok :: next) = (0, tok :: next) := by
  simp [acceptTerm, acceptNumber, acceptIdentifier, h]

theorem acceptTerm_fst_of_number (tok : Token) (next : TokenList)
    (h : tok.tt = TokenType.Number) : (acceptTerm (tok :: next)).1 = 1 := by
  have h1 : (acceptNumber (tok :: next)).1 = 1 := by simp [acceptNumber, h]
  unfold acceptTerm
  simp only []
  split_ifs <;> simp_all

theorem acceptTerm_fst_of_identifier (tok : Token) (next : TokenList)
    (h : tok.tt = TokenType.Identifier) : (acceptTerm (tok :: next)).1 = 1 := by
  have h1 : acceptNumber (tok :: next) = (0, tok :: next) := by simp [acceptNumber, h]
  have h2 : (acceptIdentifier (tok :: next)).1 = 1 := by simp [acceptIdentifier, h]
  unfold acceptTerm
  simp only [h1]
  split_ifs <;> simp_all

/-- C10: `acceptTerm` returns 1 exactly when the token at the cursor exists and is a
Number or an Identifier; otherwise it returns 0 and the cursor is the one it was given. -/
theorem acceptTerm_success_iff (lp : TokenList) :
    ((acceptTerm lp).1 = 1 ↔
        ∃ tok next, lp = tok :: next ∧
          (tok.tt = TokenType.Number ∨ tok.tt = TokenType.Identifier))
    ∧ ((acceptTerm lp).1 = 1 ∨ acceptTerm lp = (0, lp)) := by
  cases lp with
  | nil => simp [acceptTerm_nil]
  | cons tok next =>
    cases h : tok.tt with
    | Number => simp [acceptTerm_fst_of_number tok next h, h]
    | Identifier => simp [acceptTerm_fst_of_identifier tok next h, h]
    | Symbol => simp [acceptTerm_symbol tok next h, h]

/-! ## Expressions: theorems -/

theorem acceptPlusOrMinus_nil : acceptPlusOrMinus [] = (0, []) := by
  simp [acceptPlusOrMinus, acceptCharacter]

theorem acceptPlusOrMinus_cons (tok : Token) (next : TokenList) :
    acceptPlusOrMinus (tok :: next)
      = if tok.tt = TokenType.Symbol ∧ (tok.symbol = '+' ∨ tok.symbol = '-') then (1, next)
        else (0, tok :: next) := by
  by_cases hp : tok.tt = TokenType.Symbol ∧ tok.symbol = '+'
  · simp [acceptPlusOrMinus, acceptCharacter, hp]
  · by_cases hm : tok.tt = TokenType.Symbol ∧ tok.symbol = '-'
    · simp [acceptPlusOrMinus, acceptCharacter, hp, hm]
    · have : ¬ (tok.tt = TokenType.Symbol ∧ (tok.symbol = '+' ∨ tok.symbol = '-')) := by
        rintro ⟨h1, h2 | h2⟩
        · exact hp ⟨h1, h2⟩
        · exact hm ⟨h1, h2⟩
      simp [acceptPlusOrMinus, acceptCharacter, hp, hm, this]

theorem acceptExpressionLoop_nil : acceptExpressionLoop [] = (1, []) := by
  rw [acceptExpressionLoop]
  simp [acceptPlusOrMinus_nil]

theorem acceptExpressionLoop_op (tok : Token) (next : TokenList)
    (h : tok.tt = TokenType.Symbol ∧ (tok.symbol = '+' ∨ tok.symbol = '-')) :
    acceptExpressionLoop (tok :: next)
      = if (acceptTerm next).1 = 0 then (0, (acceptTerm next).2)
        else acceptExpressionLoop (acceptTerm next).2 := by
  rw [acceptExpressionLoop]
  simp [acceptPlusOrMinus_cons, h]

theorem acceptExpressionLoop_other (tok : Token) (next : TokenList)
    (h : ¬ (tok.tt = TokenType.Symbol ∧ (tok.symbol = '+' ∨ tok.symbol = '-'))) :
    acceptExpressionLoop (tok :: next) = (1, tok :: next) := by
  rw [acceptExpressionLoop]
  simp [acceptPlusOrMinus_cons, h]
theorem acceptNumber_suffix (lp : TokenList) : (acceptNumber lp).2 <:+ lp := by
  cases lp with
  | nil => simp [acceptNumber]
  | cons a l =>
    simp only [acceptNumber]
    split_ifs
    · exact List.suffix_cons a l
    · exact List.suffix_refl _

theorem acceptIdentifier_suffix (lp : TokenList) : (acceptIdentifier lp).2 <:+ lp := by
  cases lp with
  | nil => simp [acceptIdentifier]
  | cons a l =>
    simp only [acceptIdentifier]
    split_ifs
    · exact List.suffix_cons a l
    · exact List.suffix_refl _

theorem acceptCharacter_suffix (lp : TokenList) (c : Char) :
    (acceptCharacter lp c).2 <:+ lp := by
  cases lp with
  | nil => simp [acceptCharacter]
  | cons a l =>
    simp only [acceptCharacter]
    split_ifs
    · exact List.suffix_cons a l
    · exact List.suffix_refl _

theorem acceptTerm_suffix (lp : TokenList) : (acceptTerm lp).2 <:+ lp := by
  have a1 := acceptNumber_suffix lp
  have a2 := (acceptIdentifier_suffix (acceptNumber lp).2).trans a1
  have a3 := (acceptCharacter_suffix (acceptIdentifier (acceptNumber lp).2).2 '^').trans a2
  have a4 := (acceptNumber_suffix
    (acceptCharacter (acceptIdentifier (acceptNumber lp).2).2 '^').2).trans a3
  unfold acceptTerm
  simp only []
  split_ifs <;> first | exact a1 | exact a2 | exact a3 | exact a4

theorem acceptTerm_zero_or_one (lp : TokenList) :
    (acceptTerm lp).1 = 0 ∨ (acceptTerm lp).1 = 1 := by
  unfold acceptTerm
  simp only []
  split_ifs <;> simp

theorem acceptTerm_fail (lp : TokenList) (h : (acceptTerm lp).1 = 0) :
    acceptTerm lp = (0, lp) ∧ ¬ StartsTerm lp := by
  cases lp with
  | nil => simp [acceptTerm_nil, StartsTerm]
  | cons tok next =>
    cases ht : tok.tt with
    | Number => simp [acceptTerm_fst_of_number tok next ht] at h
    | Identifier => simp [acceptTerm_fst_of_identifier tok next ht] at h
    | Symbol => simp [acceptTerm_symbol tok next ht, StartsTerm, ht]

theorem acceptExpressionLoop_result (lp : TokenList) :
    ((acceptExpressionLoop lp).1 = 1 ∧ ¬ StartsOperator (acceptExpressionLoop lp).2 ∧
        (acceptExpressionLoop lp).2 <:+ lp)
    ∨ ((acceptExpressionLoop lp).1 = 0 ∧ ¬ StartsTerm (acceptExpressionLoop lp).2 ∧
        ∃ pre op, IsOperator op ∧ lp = pre ++ op :: (acceptExpressionLoop lp).2) := by
  generalize h : lp.length = n
  induction n using Nat.strong_induction_on generalizing lp with
  | _ n ih =>
    cases lp with
    | nil => simp [acceptExpressionLoop_nil, StartsOperator]
    | cons tok next =>
      by_cases hop : tok.tt = TokenType.Symbol ∧ (tok.symbol = '+' ∨ tok.symbol = '-')
      · rw [acceptExpressionLoop_op tok next hop]
        by_cases ht : (acceptTerm next).1 = 0
        · right
          have := acceptTerm_fail next ht
          simp only [ht, if_true]
          refine ⟨trivial, ?_, [], tok, hop, ?_⟩
          · rw [this.1]; exact this.2
          · rw [this.1]; rfl
        · simp only [ht, if_false]
          have hs := acceptTerm_suffix next
          have hlen : (acceptTerm next).2.length < n := by
            have := hs.length_le
            simp only [List.length_cons] at h
            omega
          rcases ih _ hlen (acceptTerm next).2 rfl with ⟨h1, h2, h3⟩ | ⟨h1, h2, pre, op, h3, h4⟩
          · left
            exact ⟨h1, h2, h3.trans (hs.trans (List.suffix_cons tok next))⟩
          · right
            obtain ⟨p2, hp2⟩ := hs
            refine ⟨h1, h2, tok :: (p2 ++ pre), op, h3, ?_⟩
            rw [List.cons_append, List.append_assoc, ← h4, hp2]
      · rw [acceptExpressionLoop_other tok next hop]
        left
        exact ⟨rfl, hop, List.suffix_refl _⟩

theorem acceptExpressionLoop_suffix (lp : TokenList) : (acceptExpressionLoop lp).2 <:+ lp := by
  rcases acceptExpressionLoop_result lp with ⟨_, _, h⟩ | ⟨_, _, pre, op, _, h⟩
  · exact h
  · exact ⟨pre ++ [op], by rw [List.append_assoc]; exact h.symm⟩

theorem acceptExpression_eq (lp : TokenList) :
    acceptExpression lp
      = if (acceptTerm (acceptCharacter lp '-').2).1 = 0
        then (0, (acceptTerm (acceptCharacter lp '-').2).2)
        else acceptExpressionLoop (acceptTerm (acceptCharacter lp '-').2).2 := rfl

theorem acceptExpression_suffix (lp : TokenList) : (acceptExpression lp).2 <:+ lp := by
  have h1 := (acceptTerm_suffix (acceptCharacter lp '-').2).trans (acceptCharacter_suffix lp '-')
  rw [acceptExpression_eq]
  split_ifs
  · exact h1
  · exact (acceptExpressionLoop_suffix _).trans h1

/-- C9: when the first term of `acceptExpression` fails, `acceptExpression` returns 0;
the cursor it leaves is the one just past the first token when the stream starts with the
symbol `-`, and is the cursor it was given when the stream does not. -/
theorem acceptExpression_first_term_fails (lp : TokenList)
    (h : (acceptTerm (acceptCharacter lp '-').2).1 = 0) :
    (acceptExpression lp).1 = 0
    ∧ (∀ tok next, lp = tok :: next → tok.tt = TokenType.Symbol → tok.symbol = '-' →
        (acceptExpression lp).2 = next)
    ∧ (¬ StartsSymbol '-' lp → (acceptExpression lp).2 = lp) := by
  have h2 := (acceptTerm_fail _ h).1
  rw [acceptExpression_eq]
  simp only [h, if_true]
  refine ⟨trivial, ?_, ?_⟩
  · intro tok next hlp ht hs
    subst hlp
    rw [h2]
    simp [acceptCharacter, ht, hs]
  · intro hns
    rw [h2]
    cases lp with
    | nil => simp [acceptCharacter]
    | cons tok next =>
      have : ¬ (tok.tt = TokenType.Symbol ∧ tok.symbol = '-') := hns
      simp [acceptCharacter, this]

theorem acceptExpression_first_term_fails_witness :
    (acceptTerm (acceptCharacter [mkSymbol '-', mkSymbol '='] '-').2).1 = 0
    ∧ (acceptExpression [mkSymbol '-', mkSymbol '=']).2 = [mkSymbol '='] :=
  ⟨by decide,
    (acceptExpression_first_term_fails [mkSymbol '-', mkSymbol '='] (by decide)).2.1
      (mkSymbol '-') [mkSymbol '='] rfl rfl rfl⟩

/-- The two shapes of the result of `acceptExpression` once the first term is accepted:
1 with the cursor on a token that is neither `+` nor `-` (or at the end), or 0 with the
cursor just past a `+` or `-` of the stream, on a token that does not start a term (or
at the end). -/
theorem acceptExpression_result_shape (lp : TokenList)
    (h : (acceptTerm (acceptCharacter lp '-').2).1 = 1) :
    ((acceptExpression lp).1 = 1 ∧ ¬ StartsOperator (acceptExpression lp).2 ∧
        (acceptExpression lp).2 <:+ lp)
    ∨ ((acceptExpression lp).1 = 0 ∧ ¬ StartsTerm (acceptExpression lp).2 ∧
        ∃ pre op, IsOperator op ∧ lp = pre ++ op :: (acceptExpression lp).2) := by
  have hs := (acceptTerm_suffix (acceptCharacter lp '-').2).trans (acceptCharacter_suffix lp '-')
  rw [acceptExpression_eq]
  simp only [h, one_ne_zero, if_false]
  rcases acceptExpressionLoop_result (acceptTerm (acceptCharacter lp '-').2).2 with
    ⟨h1, h2, h3⟩ | ⟨h1, h2, pre, op, h3, h4⟩
  · left
    exact ⟨h1, h2, h3.trans hs⟩
  · right
    obtain ⟨p2, hp2⟩ := hs
    refine ⟨h1, h2, p2 ++ pre, op, h3, ?_⟩
    rw [List.append_assoc, ← h4, hp2]

theorem acceptTerm_of_not_startsTerm (lp : TokenList) (h : ¬ StartsTerm lp) :
    acceptTerm lp = (0, lp) := by
  cases lp with
  | nil => exact acceptTerm_nil
  | cons tok next =>
    cases ht : tok.tt with
    | Number => exact absurd (Or.inl ht) h
    | Identifier => exact absurd (Or.inr ht) h
    | Symbol => exact acceptTerm_symbol tok next ht

/-- When the repetition stops on a token that is neither `+` nor `-`, or at the end, the
loop of `acceptExpression` returns 1 with the cursor there. -/
theorem acceptExpressionLoop_of_operatorTerms (a b : TokenList) (h : OperatorTerms a b)
    (hb : ¬ StartsOperator b) : acceptExpressionLoop a = (1, b) := by
  induction h with
  | done a =>
    cases a with
    | nil => exact acceptExpressionLoop_nil
    | cons tok next => exact acceptExpressionLoop_other tok next hb
  | step op next b hop ht _ ih =>
    rw [acceptExpressionLoop_op op next hop, ht]
    simpa using ih hb

/-- When the repetition stops on a `+` or `-` that no term follows, the loop of
`acceptExpression` returns 0 with the cursor just past that operator. -/
theorem acceptExpressionLoop_of_operatorTerms_dangling (a b : TokenList)
    (h : OperatorTerms a b) (op : Token) (r : TokenList) (hb : b = op :: r)
    (hop : IsOperator op) (hr : ¬ StartsTerm r) : acceptExpressionLoop a = (0, r) := by
  induction h with
  | done a =>
    subst hb
    rw [acceptExpressionLoop_op op r hop, acceptTerm_of_not_startsTerm r hr]
    simp
  | step op2 next b hop2 ht _ ih =>
    rw [acceptExpressionLoop_op op2 next hop2, ht]
    simpa using ih hb

/-- From every cursor the repetition stops, either on a token that is neither `+` nor
`-` (or at the end), or on a `+` or `-` that no term follows. -/
theorem operatorTerms_exists (a : TokenList) :
    ∃ b, OperatorTerms a b ∧
      (¬ StartsOperator b ∨ ∃ op r, b = op :: r ∧ IsOperator op ∧ ¬ StartsTerm r) := by
  generalize hn : a.length = n
  induction n using Nat.strong_induction_on generalizing a with
  | _ n ih =>
    cases a with
    | nil => exact ⟨[], OperatorTerms.done [], Or.inl (fun h => h)⟩
    | cons tok next =>
      simp only [List.length_cons] at hn
      by_cases hop : IsOperator tok
      · by_cases ht : (acceptTerm next).1 = 0
        · exact ⟨tok :: next, OperatorTerms.done _,
            Or.inr ⟨tok, next, rfl, hop, (acceptTerm_fail next ht).2⟩⟩
        · have ht1 := (acceptTerm_zero_or_one next).resolve_left ht
          have hlen : (acceptTerm next).2.length < n := by
            have := (acceptTerm_suffix next).length_le
            omega
          obtain ⟨b, hb, hstop⟩ := ih _ hlen (acceptTerm next).2 rfl
          exact ⟨b, OperatorTerms.step tok next b hop ht1 hb, hstop⟩
      · exact ⟨tok :: next, OperatorTerms.done _, Or.inl hop⟩

/-- C8, as the code has it: when the first term is accepted, `acceptExpression` goes on
accepting a `+` or `-` followed by a term, and this repetition stops at a cursor `b`
that is either on a token that is neither `+` nor `-` (or at the end) or on a `+` or `-`
that no term follows. In the first case `acceptExpression` returns 1 and leaves the
cursor at `b`; in the second it returns 0 and leaves the cursor just past that operator:
the operator is consumed. -/
theorem acceptExpression_after_first_term (lp : TokenList)
    (h : (acceptTerm (acceptCharacter lp '-').2).1 = 1) :
    (∃ b, OperatorTerms (acceptTerm (acceptCharacter lp '-').2).2 b ∧
        (¬ StartsOperator b ∨ ∃ op r, b = op :: r ∧ IsOperator op ∧ ¬ StartsTerm r))
    ∧ (∀ b, OperatorTerms (acceptTerm (acceptCharacter lp '-').2).2 b →
        ¬ StartsOperator b → acceptExpression lp = (1, b))
    ∧ (∀ b op r, OperatorTerms (acceptTerm (acceptCharacter lp '-').2).2 b →
        b = op :: r → IsOperator op → ¬ StartsTerm r → acceptExpression lp = (0, r)) := by
  refine ⟨operatorTerms_exists _, ?_, ?_⟩
  · intro b hb hstop
    rw [acceptExpression_eq]
    simp only [h, one_ne_zero, if_false]
    exact acceptExpressionLoop_of_operatorTerms _ b hb hstop
  · intro b op r hb hbeq hop hr
    rw [acceptExpression_eq]
    simp only [h, one_ne_zero, if_false]
    exact acceptExpressionLoop_of_operatorTerms_dangling _ b hb op r hbeq hop hr

theorem operatorTerms_tokensXPlus3 :
    OperatorTerms (acceptTerm (acceptCharacter tokensXPlus3 '-').2).2 [] := by
  have h1 : (acceptTerm (acceptCharacter tokensXPlus3 '-').2).2 = [mkSymbol '+', mkNumber 3] := by
    decide
  have h2 : (acceptTerm [mkNumber 3]).2 = [] := by decide
  rw [h1]
  refine OperatorTerms.step (mkSymbol '+') [mkNumber 3] [] (by decide) (by decide) ?_
  rw [h2]
  exact OperatorTerms.done []

theorem acceptExpression_after_first_term_witness :
    (acceptTerm (acceptCharacter tokensXPlus3 '-').2).1 = 1
    ∧ acceptExpression tokensXPlus3 = (1, [])
    ∧ (acceptTerm (acceptCharacter tokensXPlus '-').2).1 = 1
    ∧ acceptExpression tokensXPlus = (0, []) :=
  ⟨by decide,
    (acceptExpression_after_first_term tokensXPlus3 (by decide)).2.1 []
      operatorTerms_tokensXPlus3 (fun h => h),
    by decide,
    (acceptExpression_after_first_term tokensXPlus (by decide)).2.2 [mkSymbol '+']
      (mkSymbol '+') [] (OperatorTerms.done _) rfl (by decide) (fun h => h)⟩

/-- C8, counterexample: on the tokens of `x+` the first term is accepted, yet
`acceptExpression` returns 0, and the cursor is at the end of the stream, past the `+`. -/
theorem acceptExpression_trailing_operator_counterexample :
    (acceptTerm (acceptCharacter tokensXPlus '-').2).1 = 1
    ∧ acceptExpression tokensXPlus = (0, []) := by
  refine ⟨by decide, ?_⟩
  have h1 : acceptTerm (acceptCharacter tokensXPlus '-').2 = (1, [mkSymbol '+']) := by decide
  have h2 : acceptTerm [] = (0, []) := acceptTerm_nil
  rw [acceptExpression_eq, h1]
  simp only [one_ne_zero, if_false]
  rw [acceptExpressionLoop_op (mkSymbol '+') [] (by decide), h2]
  simp

/-! ## `countEquals` and `acceptEquation`: theorems -/

theorem countEqualsLoop_eq (equalCount : Int) (ts : TokenList) :
    countEqualsLoop equalCount ts = (equalCount + (countSymbolRead '=' ts : Nat), []) := by
  induction ts generalizing equalCount with
  | nil => simp [countEqualsLoop, countSymbolRead]
  | cons tok next ih =>
    rw [countEqualsLoop, ih]
    by_cases h : tok.symbol = '='
    · simp [countSymbolRead, List.countP_cons, h]; ring
    · simp [countSymbolRead, List.countP_cons, h]

/-- The result of `countEquals` is 1 exactly when one token of the stream reads `=`
through `t.symbol`, whatever the kinds of the tokens; otherwise it is 0. -/
theorem countEquals_eq (ts : TokenList) :
    countEquals ts = (if countSymbolRead '=' ts = 1 then 1 else 0, []) := by
  unfold countEquals
  rw [countEqualsLoop_eq]
  simp only [zero_add]
  congr 1
  by_cases h : countSymbolRead '=' ts = 1
  · simp [h]
  · have : ¬ ((countSymbolRead '=' ts : Nat) : Int) = 1 := by exact_mod_cast h
    simp [h, this]

theorem countSymbol_le_countSymbolRead (c : Char) (ts : TokenList) :
    countSymbol c ts ≤ countSymbolRead c ts := by
  unfold countSymbol countSymbolRead
  apply List.countP_mono_left
  intro tok _ h
  simp only [decide_eq_true_eq] at h ⊢
  exact h.2

theorem countSymbol_pos_of_suffix (c : Char) (ts : TokenList) (tok : Token) (next : TokenList)
    (hs : (tok :: next) <:+ ts) (h1 : tok.tt = TokenType.Symbol) (h2 : tok.symbol = c) :
    0 < countSymbol c ts := by
  unfold countSymbol
  rw [List.countP_pos_iff]
  refine ⟨tok, ?_, by simp [h1, h2]⟩
  obtain ⟨pre, rfl⟩ := hs
  simp

theorem acceptCharacter_success (lp : TokenList) (c : Char) (h : (acceptCharacter lp c).1 ≠ 0) :
    ∃ tok next, lp = tok :: next ∧ tok.tt = TokenType.Symbol ∧ tok.symbol = c ∧
      acceptCharacter lp c = (1, next) := by
  cases lp with
  | nil => simp [acceptCharacter] at h
  | cons tok next =>
    by_cases hc : tok.tt = TokenType.Symbol ∧ tok.symbol = c
    · exact ⟨tok, next, rfl, hc.1, hc.2, by simp [acceptCharacter, hc]⟩
    · simp [acceptCharacter, hc] at h

/-- C3: when the number of `=` symbol tokens of the stream is not 1, `acceptEquation`,
both cursors at the head of the stream, returns 0. -/
theorem acceptEquation_fails_unless_one_equals (ts : TokenList)
    (h : countSymbol '=' ts ≠ 1) : (acceptEquation ts ts).1 = 0 := by
  unfold acceptEquation
  simp only []
  split_ifs with h1 h2 h3 h4 h5 <;> try rfl
  exfalso
  have hread : countSymbolRead '=' ts = 1 := by
    by_contra hne
    rw [countEquals_eq] at h1
    simp [hne] at h1
  obtain ⟨tok, next, hlp, ht, hsym, _⟩ := acceptCharacter_success _ '=' h3
  have hsuf : (tok :: next) <:+ ts := by
    rw [← hlp]; exact acceptExpression_suffix ts
  have hpos := countSymbol_pos_of_suffix '=' ts tok next hsuf ht hsym
  have hle := countSymbol_le_countSymbolRead '=' ts
  omega

theorem acceptEquation_fails_unless_one_equals_witness :
    countSymbol '=' tokensXEq1Eq2 ≠ 1 ∧ (acceptEquation tokensXEq1Eq2 tokensXEq1Eq2).1 = 0 :=
  ⟨by decide, acceptEquation_fails_unless_one_equals tokensXEq1Eq2 (by decide)⟩

/-- C4, at the tokens of `1=61`: the stream has exactly one `=` symbol token, and
`countEquals` returns 0, because the number 61 reads `=` through `t.symbol`. -/
theorem countEquals_counts_number_61 :
    countSymbol '=' tokens1Eq61 = 1 ∧ countEquals tokens1Eq61 = (0, []) := by
  decide

/-! ## `acceptVariables`: theorems -/

theorem acceptVariablesLoop_with_first (numVar : Int) (first : Token) (tl ts : TokenList) :
    (acceptVariablesLoop 1 numVar (first :: tl) ts).1
        = (if ∀ n ∈ identifierNames ts, n = first.identifier then 1 else 0)
    ∧ numVar ≤ (acceptVariablesLoop 1 numVar (first :: tl) ts).2.1 := by
  induction ts generalizing numVar with
  | nil => simp [acceptVariablesLoop, identifierNames]
  | cons tok next ih =>
    by_cases ht : tok.tt = TokenType.Identifier
    · by_cases hn : first.identifier = tok.identifier
      · have := ih (numVar + 1)
        simp only [acceptVariablesLoop, ht, if_true, hn, identifierNames] at this ⊢
        refine ⟨?_, by omega⟩
        rw [this.1]
        simp [hn]
      · simp only [acceptVariablesLoop, ht, if_true, hn, if_false, identifierNames]
        refine ⟨?_, by omega⟩
        have : ¬ ∀ n ∈ tok.identifier :: identifierNames next, n = first.identifier := by
          intro h
          exact hn (h tok.identifier (List.mem_cons_self _ _)).symm
        rw [if_neg this]
    · simpa only [acceptVariablesLoop, ht, if_false, identifierNames] using ih numVar

theorem acceptVariablesLoop_start (numVar : Int) (ts : TokenList) :
    (identifierNames ts = [] → (acceptVariablesLoop 1 numVar [] ts).2.1 = numVar)
    ∧ (∀ x rest, identifierNames ts = x :: rest →
        numVar < (acceptVariablesLoop 1 numVar [] ts).2.1
        ∧ (acceptVariablesLoop 1 numVar [] ts).1 = (if ∀ n ∈ rest, n = x then 1 else 0)) := by
  induction ts with
  | nil => simp [acceptVariablesLoop, identifierNames]
  | cons tok next ih =>
    by_cases ht : tok.tt = TokenType.Identifier
    · simp only [acceptVariablesLoop, ht, if_true, identifierNames, tokenListOfIdentifier]
      refine ⟨by simp, ?_⟩
      intro x rest hx
      have h1 := acceptVariablesLoop_with_first (numVar + 1) (mkIdentifier tok.identifier) [] next
      simp only [List.cons.injEq] at hx
      obtain ⟨rfl, rfl⟩ := hx
      refine ⟨by omega, ?_⟩
      rw [h1.1]
      rfl
    · simpa only [acceptVariablesLoop, ht, if_false, identifierNames] using ih

/-- C5: `acceptVariables` returns 1 exactly when the stream has an Identifier token and
every Identifier token of the stream has the name of the first one; otherwise it returns
0. On the tokens of `x+y=1` and on a stream without identifiers it returns 0. -/
theorem acceptVariables_iff (ts : TokenList) :
    ((acceptVariables ts).1 = 1 ↔
        ∃ x, (identifierNames ts).head? = some x ∧ ∀ n ∈ identifierNames ts, n = x)
    ∧ ((acceptVariables ts).1 = 1 ∨ (acceptVariables ts).1 = 0)
    ∧ (identifierNames ts = [] → (acceptVariables ts).1 = 0)
    ∧ (acceptVariables tokensXPlusYEq1).1 = 0 := by
  have key : ((acceptVariables ts).1 = 1 ↔
        ∃ x, (identifierNames ts).head? = some x ∧ ∀ n ∈ identifierNames ts, n = x)
      ∧ ((acceptVariables ts).1 = 1 ∨ (acceptVariables ts).1 = 0) := by
    have h := acceptVariablesLoop_start 0 ts
    unfold acceptVariables
    simp only []
    cases hn : identifierNames ts with
    | nil =>
      have := h.1 hn
      rw [this]
      have h0 : ¬ ((0 : Int) > 0) := by decide
      rw [if_neg h0]
      refine ⟨⟨fun h => absurd h (by decide), ?_⟩, Or.inr rfl⟩
      rintro ⟨x, hx, _⟩
      cases hx
    | cons x rest =>
      obtain ⟨h1, h2⟩ := h.2 x rest hn
      simp only [gt_iff_lt, h1, if_true, h2, List.head?_cons, Option.some.injEq]
      by_cases hall : ∀ n ∈ rest, n = x
      · rw [if_pos hall]
        refine ⟨⟨fun _ => ?_, fun _ => rfl⟩, Or.inl rfl⟩
        refine ⟨x, rfl, ?_⟩
        intro n hmem
        rcases List.mem_cons.mp hmem with h | h
        · exact h
        · exact hall n h
      · rw [if_neg hall]
        refine ⟨⟨fun h => absurd h (by decide), ?_⟩, Or.inr rfl⟩
        rintro ⟨y, rfl, hy⟩
        exact (hall (fun n hmem => hy n (List.mem_cons_of_mem _ hmem))).elim
  refine ⟨key.1, key.2, ?_, by decide⟩
  intro hnil
  rcases key.2 with h | h
  · obtain ⟨x, hx, _⟩ := key.1.mp h
    simp [hnil] at hx
  · exact h

/-! ## `isDegree`: theorems -/

theorem isDegree_nil : isDegree [] = (1, []) := by
  rw [isDegree]

theorem isDegree_other (tok : Token) (next : TokenList) (h : tok.symbol ≠ '^') :
    isDegree (tok :: next) = isDegree next := by
  rw [isDegree.eq_def]
  simp [h]

theorem isDegree_caret_end (tok : Token) (h : tok.symbol = '^') :
    isDegree [tok] = (0, []) := by
  rw [isDegree.eq_def]
  simp [h]

theorem isDegree_caret_cons (tok e : Token) (rest : TokenList) (h : tok.symbol = '^') :
    isDegree (tok :: e :: rest)
      = if e.tt ≠ TokenType.Number then (0, e :: rest) else isDegree rest := by
  rw [isDegree.eq_def]
  simp only [h, if_true]
  by_cases hn : e.tt = TokenType.Number
  · have hm : acceptCharacter (e :: rest) '-' = (0, e :: rest) := by
      simp [acceptCharacter, hn]
    simp only [hn, ne_eq, not_true_eq_false, if_false, hm]
    split
    · next h1 => rw [hm] at h1; cases h1
    · next a b h1 => rw [hm] at h1; cases h1; rfl
  · simp [hn]

/-- On a stream in which no Number or Identifier token reads `^` through `t.symbol`,
`isDegree` returns 1 exactly when every `^` symbol token is immediately followed by a
Number token. -/
theorem isDegree_iff_of_clean (ts : TokenList) (hc : SymbolReadsClean ts) :
    (isDegree ts).1 = 1 ↔ ExponentsWellFormed ts := by
  generalize hn : ts.length = n
  induction n using Nat.strong_induction_on generalizing ts with
  | _ n ih =>
    cases ts with
    | nil => simp [isDegree_nil, ExponentsWellFormed]
    | cons tok next =>
      have hcn : SymbolReadsClean next := fun t ht => hc t (List.mem_cons_of_mem _ ht)
      by_cases h : tok.symbol = '^'
      · have hsym : tok.tt = TokenType.Symbol := hc tok (List.mem_cons_self _ _) (Or.inr h)
        cases next with
        | nil => simp [isDegree_caret_end tok h, ExponentsWellFormed, hsym, h, StartsNumber]
        | cons e rest =>
          have hcr : SymbolReadsClean rest := fun t ht => hcn t (List.mem_cons_of_mem _ ht)
          rw [isDegree_caret_cons tok e rest h]
          by_cases he : e.tt = TokenType.Number
          · have hlen : rest.length < n := by
              simp only [List.length_cons] at hn; omega
            simp only [he, ne_eq, not_true_eq_false, if_false, ExponentsWellFormed, hsym, h,
              and_self, StartsNumber, true_implies, true_and]
            rw [ih _ hlen rest hcr rfl]
            simp
          · simp [he, ExponentsWellFormed, hsym, h, StartsNumber]
      · have hlen : next.length < n := by
          simp only [List.length_cons] at hn; omega
        rw [isDegree_other tok next h, ih _ hlen next hcn rfl]
        simp [ExponentsWellFormed, h]

theorem isDegree_iff_of_clean_witness :
    SymbolReadsClean tokensXPlusYEq1 ∧
      ((isDegree tokensXPlusYEq1).1 = 1 ↔ ExponentsWellFormed tokensXPlusYEq1) :=
  ⟨by decide, isDegree_iff_of_clean tokensXPlusYEq1 (by decide)⟩

/-- C6, at the tokens of `1=94`: every `^` symbol token of the stream is followed by a
Number (there is none), and `isDegree` returns 0, because the number 94 reads `^`
through `t.symbol`. -/
theorem isDegree_rejects_number_94 :
    ExponentsWellFormed tokens1Eq94 ∧ countSymbol '^' tokens1Eq94 = 0
      ∧ isDegree tokens1Eq94 = (0, []) := by
  refine ⟨by decide, by decide, ?_⟩
  unfold tokens1Eq94
  rw [isDegree_other _ _ (by decide), isDegree_other _ _ (by decide),
    isDegree_caret_end _ (by decide)]

/-! ## The grammar: what the recogniser accepts is derivable -/

theorem exponentsWellFormed_of_isDegree (ts : TokenList) (h : (isDegree ts).1 = 1) :
    ExponentsWellFormed ts := by
  generalize hn : ts.length = n
  induction n using Nat.strong_induction_on generalizing ts with
  | _ n ih =>
    cases ts with
    | nil => trivial
    | cons tok next =>
      by_cases hr : tok.symbol = '^'
      · cases next with
        | nil => simp [isDegree_caret_end tok hr] at h
        | cons e rest =>
          rw [isDegree_caret_cons tok e rest hr] at h
          by_cases he : e.tt = TokenType.Number
          · simp only [he, ne_eq, not_true_eq_false, if_false] at h
            have hlen : rest.length < n := by
              simp only [List.length_cons] at hn; omega
            have := ih _ hlen rest h rfl
            refine ⟨fun _ => he, ?_, this⟩
            rintro ⟨h1, _⟩
            rw [he] at h1
            cases h1
          · simp [he] at h
      · rw [isDegree_other tok next hr] at h
        have hlen : next.length < n := by
          simp only [List.length_cons] at hn; omega
        exact ⟨fun hs => absurd hs.2 hr, ih _ hlen next h rfl⟩

theorem exponentsWellFormed_of_append (a b : TokenList) (h : ExponentsWellFormed (a ++ b)) :
    ExponentsWellFormed b := by
  induction a with
  | nil => exact h
  | cons tok next ih => exact ih h.2

theorem exponentsWellFormed_of_suffix (a ts : TokenList) (hs : a <:+ ts)
    (h : ExponentsWellFormed ts) : ExponentsWellFormed a := by
  obtain ⟨pre, rfl⟩ := hs
  exact exponentsWellFormed_of_append pre a h

/-- On a stream whose `^` symbols are all followed by a number, what `acceptTerm`
consumes is a monomial of the grammar. -/
theorem acceptTerm_monomial (lp : TokenList) (hw : ExponentsWellFormed lp)
    (h : (acceptTerm lp).1 = 1) :
    ∃ m, Monomial m ∧ lp = m ++ (acceptTerm lp).2 := by
  rcases lp with _ | ⟨a, l1⟩
  · simp [acceptTerm_nil] at h
  cases ha : a.tt with
  | Symbol => simp [acceptTerm_symbol a l1 ha] at h
  | Number =>
    rcases l1 with _ | ⟨b, l2⟩
    · exact ⟨[a], Monomial.number a ha, by simp [acceptTerm, acceptNumber, acceptIdentifier, ha]⟩
    by_cases hb : b.tt = TokenType.Identifier
    · rcases l2 with _ | ⟨c, l3⟩
      · exact ⟨[a, b], Monomial.numberIdentifier a b ha hb,
          by simp [acceptTerm, acceptNumber, acceptIdentifier, acceptCharacter, ha, hb]⟩
      by_cases hc : c.tt = TokenType.Symbol ∧ c.symbol = '^'
      · have hnum : StartsNumber l3 := hw.2.2.1 hc
        rcases l3 with _ | ⟨e, l4⟩
        · exact hnum.elim
        · have he : e.tt = TokenType.Number := hnum
          exact ⟨[a, b, c, e], Monomial.numberIdentifierPower a b c e ha hb hc.1 hc.2 he,
            by simp [acceptTerm, acceptNumber, acceptIdentifier, acceptCharacter, ha, hb, hc, he]⟩
      · exact ⟨[a, b], Monomial.numberIdentifier a b ha hb,
          by simp [acceptTerm, acceptNumber, acceptIdentifier, acceptCharacter, ha, hb, hc]⟩
    · exact ⟨[a], Monomial.number a ha,
        by simp [acceptTerm, acceptNumber, acceptIdentifier, ha, hb]⟩
  | Identifier =>
    rcases l1 with _ | ⟨c, l3⟩
    · exact ⟨[a], Monomial.identifier a ha,
        by simp [acceptTerm, acceptNumber, acceptIdentifier, acceptCharacter, ha]⟩
    by_cases hc : c.tt = TokenType.Symbol ∧ c.symbol = '^'
    · have hnum : StartsNumber l3 := hw.2.1 hc
      rcases l3 with _ | ⟨e, l4⟩
      · exact hnum.elim
      · have he : e.tt = TokenType.Number := hnum
        exact ⟨[a, c, e], Monomial.identifierPower a c e ha hc.1 hc.2 he,
          by simp [acceptTerm, acceptNumber, acceptIdentifier, acceptCharacter, ha, hc, he]⟩
    · exact ⟨[a], Monomial.identifier a ha,
        by simp [acceptTerm, acceptNumber, acceptIdentifier, acceptCharacter, ha, hc]⟩

theorem acceptCharacter_fail (lp : TokenList) (c : Char) (h : (acceptCharacter lp c).1 = 0) :
    acceptCharacter lp c = (0, lp) := by
  cases lp with
  | nil => rfl
  | cons tok next =>
    by_cases hc : tok.tt = TokenType.Symbol ∧ tok.symbol = c
    · simp [acceptCharacter, hc] at h
    · simp [acceptCharacter, hc]

theorem acceptExpressionLoop_zero_or_one (lp : TokenList) :
    (acceptExpressionLoop lp).1 = 0 ∨ (acceptExpressionLoop lp).1 = 1 := by
  rcases acceptExpressionLoop_result lp with h | h
  · exact Or.inr h.1
  · exact Or.inl h.1

theorem acceptExpression_zero_or_one (lp : TokenList) :
    (acceptExpression lp).1 = 0 ∨ (acceptExpression lp).1 = 1 := by
  rw [acceptExpression_eq]
  split_ifs
  · exact Or.inl rfl
  · exact acceptExpressionLoop_zero_or_one _

theorem acceptExpressionLoop_tail (lp : TokenList) (hw : ExponentsWellFormed lp)
    (h : (acceptExpressionLoop lp).1 = 1) :
    ∃ tl, MonomialTail tl ∧ lp = tl ++ (acceptExpressionLoop lp).2 := by
  generalize hn : lp.length = n
  induction n using Nat.strong_induction_on generalizing lp with
  | _ n ih =>
    cases lp with
    | nil => exact ⟨[], MonomialTail.nil, by simp [acceptExpressionLoop_nil]⟩
    | cons tok next =>
      by_cases hop : tok.tt = TokenType.Symbol ∧ (tok.symbol = '+' ∨ tok.symbol = '-')
      · rw [acceptExpressionLoop_op tok next hop] at h ⊢
        by_cases ht : (acceptTerm next).1 = 0
        · simp [ht] at h
        · simp only [ht, if_false] at h ⊢
          have ht1 : (acceptTerm next).1 = 1 := (acceptTerm_zero_or_one next).resolve_left ht
          have hwn : ExponentsWellFormed next := hw.2
          obtain ⟨m, hm, hnext⟩ := acceptTerm_monomial next hwn ht1
          have hs := acceptTerm_suffix next
          have hlen : (acceptTerm next).2.length < n := by
            have := hs.length_le
            simp only [List.length_cons] at hn
            omega
          obtain ⟨tl, htl, hrest⟩ :=
            ih _ hlen (acceptTerm next).2 (exponentsWellFormed_of_suffix _ _ hs hwn) h rfl
          refine ⟨tok :: (m ++ tl), MonomialTail.cons tok m tl hop hm htl, ?_⟩
          rw [List.cons_append, List.append_assoc, ← hrest, ← hnext]
      · rw [acceptExpressionLoop_other tok next hop]
        exact ⟨[], MonomialTail.nil, rfl⟩

theorem acceptExpression_expression (lp : TokenList) (hw : ExponentsWellFormed lp)
    (h : (acceptExpression lp).1 = 1) :
    ∃ e, Expression e ∧ lp = e ++ (acceptExpression lp).2 := by
  rw [acceptExpression_eq] at h ⊢
  by_cases ht : (acceptTerm (acceptCharacter lp '-').2).1 = 0
  · simp [ht] at h
  simp only [ht, if_false] at h ⊢
  have ht1 := (acceptTerm_zero_or_one _).resolve_left ht
  have hs1 := acceptCharacter_suffix lp '-'
  have hw1 := exponentsWellFormed_of_suffix _ _ hs1 hw
  obtain ⟨m, hm, hlp1⟩ := acceptTerm_monomial _ hw1 ht1
  have hw2 := exponentsWellFormed_of_suffix _ _ (acceptTerm_suffix _) hw1
  obtain ⟨tl, htl, hlp2⟩ := acceptExpressionLoop_tail _ hw2 h
  by_cases hc : (acceptCharacter lp '-').1 = 0
  · have hcf := acceptCharacter_fail lp '-' hc
    refine ⟨m ++ tl, Expression.plain m tl hm htl, ?_⟩
    rw [List.append_assoc, ← hlp2]
    rw [hcf] at hlp1 ⊢
    exact hlp1
  · obtain ⟨s, next, hlp, hs, hsym, hcs⟩ := acceptCharacter_success lp '-' hc
    subst hlp
    refine ⟨s :: (m ++ tl), Expression.negated s m tl hs hsym hm htl, ?_⟩
    rw [List.cons_append, List.append_assoc, ← hlp2]
    rw [hcs] at hlp1 ⊢
    exact congrArg _ hlp1

/-- Every stream on which `acceptEquation` and `isDegree` return 1 is derivable from the
grammar, whatever its tokens read through `t.symbol`. -/
theorem equation_of_accepted (ts lp1 : TokenList) (h : (acceptEquation ts lp1).1 = 1)
    (hd : (isDegree ts).1 = 1) : Equation ts := by
  have hw := exponentsWellFormed_of_isDegree ts hd
  unfold acceptEquation at h
  simp only [] at h
  split_ifs at h with h1 h2 h3 h4 h5
  all_goals try (simp at h)
  have he1 := (acceptExpression_zero_or_one ts).resolve_left h2
  obtain ⟨l, hl, hts⟩ := acceptExpression_expression ts hw he1
  obtain ⟨eq, next, hlp, hs, hsym, hcs⟩ := acceptCharacter_success _ '=' h3
  rw [hcs] at h4 h5
  have hwn : ExponentsWellFormed next :=
    exponentsWellFormed_of_suffix _ _
      ((List.suffix_cons eq next).trans (hlp ▸ acceptExpression_suffix ts)) hw
  have he2 := (acceptExpression_zero_or_one next).resolve_left h4
  obtain ⟨r, hr, hnext⟩ := acceptExpression_expression next hwn he2
  have hend : (acceptExpression next).2 = [] := by
    by_contra hne
    exact h5 hne
  rw [hend, List.append_nil] at hnext
  rw [hts, hlp, hnext]
  exact Equation.mk l eq r hl hs hsym hr

/-! ## The grammar: what is derivable is accepted when the `t.symbol` reads are clean -/

theorem acceptTerm_of_monomial (m rest : TokenList) (hm : Monomial m)
    (hr : StartsSeparatorOrEnd rest) : acceptTerm (m ++ rest) = (1, rest) := by
  cases hm with
  | number n hn =>
    cases rest with
    | nil => simp [acceptTerm, acceptNumber, acceptIdentifier, hn]
    | cons t r =>
      have ht : t.tt = TokenType.Symbol := hr.1
      simp [acceptTerm, acceptNumber, acceptIdentifier, hn, ht]
  | identifier x hx =>
    cases rest with
    | nil => simp [acceptTerm, acceptNumber, acceptIdentifier, acceptCharacter, hx]
    | cons t r =>
      have ht : t.tt = TokenType.Symbol := hr.1
      have ht2 : ¬ t.symbol = '^' := hr.2
      simp [acceptTerm, acceptNumber, acceptIdentifier, acceptCharacter, hx, ht, ht2]
  | numberIdentifier n x hn hx =>
    cases rest with
    | nil => simp [acceptTerm, acceptNumber, acceptIdentifier, acceptCharacter, hn, hx]
    | cons t r =>
      have ht : t.tt = TokenType.Symbol := hr.1
      have ht2 : ¬ t.symbol = '^' := hr.2
      simp [acceptTerm, acceptNumber, acceptIdentifier, acceptCharacter, hn, hx, ht, ht2]
  | identifierPower x c e hx hc hc2 he =>
    simp [acceptTerm, acceptNumber, acceptIdentifier, acceptCharacter, hx, hc, hc2, he]
  | numberIdentifierPower n x c e hn hx hc hc2 he =>
    simp [acceptTerm, acceptNumber, acceptIdentifier, acceptCharacter, hn, hx, hc, hc2, he]

theorem monomial_head (m : TokenList) (hm : Monomial m) :
    ∃ a l, m = a :: l ∧ (a.tt = TokenType.Number ∨ a.tt = TokenType.Identifier) := by
  cases hm with
  | number n hn => exact ⟨n, _, rfl, Or.inl hn⟩
  | identifier x hx => exact ⟨x, _, rfl, Or.inr hx⟩
  | numberIdentifier n x hn hx => exact ⟨n, _, rfl, Or.inl hn⟩
  | identifierPower x c e hx hc hc2 he => exact ⟨x, _, rfl, Or.inr hx⟩
  | numberIdentifierPower n x c e hn hx hc hc2 he => exact ⟨n, _, rfl, Or.inl hn⟩

theorem startsSeparatorOrEnd_tail_append (tl rest : TokenList) (htl : MonomialTail tl)
    (hr : StartsSeparatorOrEnd rest) : StartsSeparatorOrEnd (tl ++ rest) := by
  cases htl with
  | nil => exact hr
  | cons op m tl2 hop hm htl2 =>
    refine ⟨hop.1, ?_⟩
    rcases hop.2 with h | h <;> rw [h] <;> decide

theorem acceptExpressionLoop_of_tail (tl rest : TokenList) (htl : MonomialTail tl)
    (hr : StartsSeparatorOrEnd rest) (hno : ¬ StartsOperator rest) :
    acceptExpressionLoop (tl ++ rest) = (1, rest) := by
  induction htl with
  | nil =>
    cases rest with
    | nil => exact acceptExpressionLoop_nil
    | cons t r => exact acceptExpressionLoop_other t r hno
  | cons op m tl2 hop hm htl2 ih =>
    rw [List.cons_append, List.append_assoc, acceptExpressionLoop_op op _ hop,
      acceptTerm_of_monomial m (tl2 ++ rest) hm (startsSeparatorOrEnd_tail_append tl2 rest htl2 hr)]
    simpa using ih

theorem acceptExpression_of_expression (e rest : TokenList) (he : Expression e)
    (hr : StartsSeparatorOrEnd rest) (hno : ¬ StartsOperator rest) :
    acceptExpression (e ++ rest) = (1, rest) := by
  cases he with
  | plain m tl hm htl =>
    obtain ⟨a, l, rfl, ha⟩ := monomial_head m hm
    have hc : acceptCharacter (a :: l ++ tl ++ rest) '-' = (0, a :: l ++ tl ++ rest) := by
      have : ¬ a.tt = TokenType.Symbol := by
        rcases ha with h | h <;> rw [h] <;> decide
      simp [acceptCharacter, this]
    rw [acceptExpression_eq, hc]
    simp only []
    rw [List.append_assoc,
      acceptTerm_of_monomial (a :: l) (tl ++ rest) hm
        (startsSeparatorOrEnd_tail_append tl rest htl hr)]
    simpa using acceptExpressionLoop_of_tail tl rest htl hr hno
  | negated s m tl hs hsym hm htl =>
    have hc : acceptCharacter (s :: (m ++ tl) ++ rest) '-' = (1, m ++ tl ++ rest) := by
      simp [acceptCharacter, hs, hsym]
    rw [acceptExpression_eq, hc]
    simp only []
    rw [List.append_assoc,
      acceptTerm_of_monomial m (tl ++ rest) hm
        (startsSeparatorOrEnd_tail_append tl rest htl hr)]
    simpa using acceptExpressionLoop_of_tail tl rest htl hr hno

theorem countSymbol_append (c : Char) (a b : TokenList) :
    countSymbol c (a ++ b) = countSymbol c a + countSymbol c b := by
  simp [countSymbol, List.countP_append]

theorem countSymbol_cons (c : Char) (tok : Token) (next : TokenList) :
    countSymbol c (tok :: next)
      = countSymbol c next + (if tok.tt = TokenType.Symbol ∧ tok.symbol = c then 1 else 0) := by
  simp [countSymbol, List.countP_cons]

theorem countSymbol_nil (c : Char) : countSymbol c [] = 0 := rfl

theorem countSymbol_equals_monomial (m : TokenList) (hm : Monomial m) :
    countSymbol '=' m = 0 := by
  cases hm with
  | number n hn => simp [countSymbol_cons, countSymbol_nil, hn]
  | identifier x hx => simp [countSymbol_cons, countSymbol_nil, hx]
  | numberIdentifier n x hn hx => simp [countSymbol_cons, countSymbol_nil, hn, hx]
  | identifierPower x c e hx hc hc2 he =>
    simp [countSymbol_cons, countSymbol_nil, hx, hc, hc2, he]
  | numberIdentifierPower n x c e hn hx hc hc2 he =>
    simp [countSymbol_cons, countSymbol_nil, hn, hx, hc, hc2, he]

theorem countSymbol_equals_tail (tl : TokenList) (htl : MonomialTail tl) :
    countSymbol '=' tl = 0 := by
  induction htl with
  | nil => rfl
  | cons op m tl2 hop hm _ ih =>
    have hne : ¬ op.symbol = '=' := by
      rcases hop.2 with h | h <;> rw [h] <;> decide
    rw [countSymbol_cons, countSymbol_append, countSymbol_equals_monomial m hm, ih]
    simp [hne]

theorem countSymbol_equals_expression (e : TokenList) (he : Expression e) :
    countSymbol '=' e = 0 := by
  cases he with
  | plain m tl hm htl =>
    rw [countSymbol_append, countSymbol_equals_monomial m hm, countSymbol_equals_tail tl htl]
  | negated s m tl hs hsym hm htl =>
    rw [countSymbol_cons, countSymbol_append, countSymbol_equals_monomial m hm,
      countSymbol_equals_tail tl htl]
    simp [hsym]

theorem countSymbol_equals_equation (ts : TokenList) (h : Equation ts) :
    countSymbol '=' ts = 1 := by
  cases h with
  | mk l eq r hl hs hsym hr =>
    rw [countSymbol_append, countSymbol_cons, countSymbol_equals_expression l hl,
      countSymbol_equals_expression r hr]
    simp [hs, hsym]

theorem countSymbolRead_of_clean (ts : TokenList) (hc : SymbolReadsClean ts) :
    countSymbolRead '=' ts = countSymbol '=' ts := by
  unfold countSymbolRead countSymbol
  apply List.countP_congr
  intro tok hmem
  simp only [decide_eq_true_eq]
  exact ⟨fun h => ⟨hc tok hmem (Or.inl h), h⟩, fun h => h.2⟩

theorem exponentsWellFormed_cons_of_number (tok : Token) (next : TokenList)
    (h : tok.tt = TokenType.Number) (hr : ExponentsWellFormed next) :
    ExponentsWellFormed (tok :: next) :=
  ⟨fun hs => absurd (h.symm.trans hs.1) (by decide), hr⟩

theorem exponentsWellFormed_cons_of_identifier (tok : Token) (next : TokenList)
    (h : tok.tt = TokenType.Identifier) (hr : ExponentsWellFormed next) :
    ExponentsWellFormed (tok :: next) :=
  ⟨fun hs => absurd (h.symm.trans hs.1) (by decide), hr⟩

theorem exponentsWellFormed_cons_of_not_caret (tok : Token) (next : TokenList)
    (h : tok.symbol ≠ '^') (hr : ExponentsWellFormed next) :
    ExponentsWellFormed (tok :: next) :=
  ⟨fun hs => absurd hs.2 h, hr⟩

theorem exponentsWellFormed_monomial_append (m rest : TokenList) (hm : Monomial m)
    (hr : ExponentsWellFormed rest) : ExponentsWellFormed (m ++ rest) := by
  cases hm with
  | number n hn => exact exponentsWellFormed_cons_of_number n _ hn hr
  | identifier x hx => exact exponentsWellFormed_cons_of_identifier x _ hx hr
  | numberIdentifier n x hn hx =>
    exact exponentsWellFormed_cons_of_number n _ hn
      (exponentsWellFormed_cons_of_identifier x _ hx hr)
  | identifierPower x c e hx hc hc2 he =>
    exact exponentsWellFormed_cons_of_identifier x _ hx
      ⟨fun _ => he, exponentsWellFormed_cons_of_number e _ he hr⟩
  | numberIdentifierPower n x c e hn hx hc hc2 he =>
    exact exponentsWellFormed_cons_of_number n _ hn
      (exponentsWellFormed_cons_of_identifier x _ hx
        ⟨fun _ => he, exponentsWellFormed_cons_of_number e _ he hr⟩)

theorem exponentsWellFormed_tail_append (tl rest : TokenList) (htl : MonomialTail tl)
    (hr : ExponentsWellFormed rest) : ExponentsWellFormed (tl ++ rest) := by
  induction htl with
  | nil => exact hr
  | cons op m tl2 hop hm _ ih =>
    rw [List.cons_append, List.append_assoc]
    have hne : op.symbol ≠ '^' := by
      rcases hop.2 with h | h <;> rw [h] <;> decide
    exact exponentsWellFormed_cons_of_not_caret op _ hne
      (exponentsWellFormed_monomial_append m _ hm ih)

theorem exponentsWellFormed_expression_append (e rest : TokenList) (he : Expression e)
    (hr : ExponentsWellFormed rest) : ExponentsWellFormed (e ++ rest) := by
  cases he with
  | plain m tl hm htl =>
    rw [List.append_assoc]
    exact exponentsWellFormed_monomial_append m _ hm
      (exponentsWellFormed_tail_append tl rest htl hr)
  | negated s m tl hs hsym hm htl =>
    rw [List.cons_append, List.append_assoc]
    have hne : s.symbol ≠ '^' := by rw [hsym]; decide
    exact exponentsWellFormed_cons_of_not_caret s _ hne
      (exponentsWellFormed_monomial_append m _ hm
        (exponentsWellFormed_tail_append tl rest htl hr))

theorem exponentsWellFormed_of_equation (ts : TokenList) (h : Equation ts) :
    ExponentsWellFormed ts := by
  cases h with
  | mk l eq r hl hs hsym hr =>
    apply exponentsWellFormed_expression_append l _ hl
    have hne : eq.symbol ≠ '^' := by rw [hsym]; decide
    apply exponentsWellFormed_cons_of_not_caret eq _ hne
    simpa using exponentsWellFormed_expression_append r [] hr trivial

theorem acceptEquation_of_equation (ts : TokenList) (h : Equation ts)
    (hc : SymbolReadsClean ts) : acceptEquation ts ts = (1, [], []) := by
  have hcount : countEquals ts = (1, []) := by
    rw [countEquals_eq, countSymbolRead_of_clean ts hc, countSymbol_equals_equation ts h]
    simp
  cases h with
  | mk l eq r hl hs hsym hr =>
    have h1 : acceptExpression (l ++ eq :: r) = (1, eq :: r) :=
      acceptExpression_of_expression l (eq :: r) hl
        ⟨hs, by rw [hsym]; decide⟩
        (fun hop => by
          rcases hop.2 with h | h <;> rw [hsym] at h <;> exact absurd h (by decide))
    have h2 : acceptCharacter (eq :: r) '=' = (1, r) := by
      simp [acceptCharacter, hs, hsym]
    have h3 : acceptExpression r = (1, []) := by
      simpa using acceptExpression_of_expression r [] hr trivial (fun h => h)
    unfold acceptEquation
    simp [hcount, h1, h2, h3]

/-- On a stream in which no Number or Identifier token reads `=` or `^` through
`t.symbol`, `acceptEquation` and `isDegree` both return 1 exactly when the stream is
derivable from the grammar. -/
theorem accepted_iff_equation_of_clean (ts : TokenList) (hc : SymbolReadsClean ts) :
    ((acceptEquation ts ts).1 = 1 ∧ (isDegree ts).1 = 1) ↔ Equation ts := by
  constructor
  · rintro ⟨h1, h2⟩
    exact equation_of_accepted ts ts h1 h2
  · intro h
    refine ⟨by rw [acceptEquation_of_equation ts h hc], ?_⟩
    rw [isDegree_iff_of_clean ts hc]
    exact exponentsWellFormed_of_equation ts h

theorem accepted_iff_equation_of_clean_witness :
    SymbolReadsClean tokensXPlus3Eq7 ∧
      (((acceptEquation tokensXPlus3Eq7 tokensXPlus3Eq7).1 = 1 ∧ (isDegree tokensXPlus3Eq7).1 = 1)
        ↔ Equation tokensXPlus3Eq7) :=
  ⟨by decide, accepted_iff_equation_of_clean tokensXPlus3Eq7 (by decide)⟩

theorem equation_tokens1Eq61 : Equation tokens1Eq61 :=
  Equation.mk [mkNumber 1] (mkSymbol '=') [mkNumber 61]
    (Expression.plain [mkNumber 1] [] (Monomial.number _ rfl) MonomialTail.nil) rfl rfl
    (Expression.plain [mkNumber 61] [] (Monomial.number _ rfl) MonomialTail.nil)

theorem equation_tokensXPlus3Eq7 : Equation tokensXPlus3Eq7 :=
  Equation.mk [mkIdentifier "x", mkSymbol '+', mkNumber 3] (mkSymbol '=') [mkNumber 7]
    (Expression.plain [mkIdentifier "x"] [mkSymbol '+', mkNumber 3]
      (Monomial.identifier _ rfl)
      (MonomialTail.cons (mkSymbol '+') [mkNumber 3] [] (by decide) (Monomial.number _ rfl)
        MonomialTail.nil))
    rfl rfl
    (Expression.plain [mkNumber 7] [] (Monomial.number _ rfl) MonomialTail.nil)

/-- C2, at the tokens of `1=61`: the stream is derivable from the grammar, and
`acceptEquation` returns 0, because `countEquals` counts the number 61, which reads `=`
through `t.symbol`, as a second `=`. The tokens of `x+3=7` are accepted. -/
theorem acceptEquation_rejects_derivable_1Eq61 :
    Equation tokens1Eq61 ∧ (acceptEquation tokens1Eq61 tokens1Eq61).1 = 0
    ∧ (acceptEquation tokensXPlus3Eq7 tokensXPlus3Eq7).1 = 1
    ∧ (isDegree tokensXPlus3Eq7).1 = 1 := by
  have h := (accepted_iff_equation_of_clean tokensXPlus3Eq7 (by decide)).mpr
    equation_tokensXPlus3Eq7
  refine ⟨equation_tokens1Eq61, ?_, h.1, h.2⟩
  have hc : countEquals tokens1Eq61 = (0, []) := by decide
  unfold acceptEquation
  simp [hc]

/-! ## `checkDegree`: theorems -/

theorem checkDegreeLoop_nil (highest counter : Int) :
    checkDegreeLoop highest counter [] = some (highest, []) := by
  rw [checkDegreeLoop.eq_def]

theorem checkDegreeLoop_cons (highest counter : Int) (tok : Token) (next : TokenList) :
    checkDegreeLoop highest counter (tok :: next)
      = match checkDegreeBody highest counter (tok :: next) with
        | none => none
        | some r => checkDegreeLoop r.1 r.2.1 r.2.2.tail := by
  rw [checkDegreeLoop.eq_def]
  simp only []
  split
  · next h => rw [h]
  · next a b c h => rw [h]

theorem checkDegreeLoop_other (highest counter : Int) (tok : Token) (next : TokenList)
    (h : tok.tt ≠ TokenType.Identifier) :
    checkDegreeLoop highest counter (tok :: next) = checkDegreeLoop highest counter next := by
  rw [checkDegreeLoop_cons]
  simp [checkDegreeBody, acceptIdentifier, h]

theorem checkDegreeLoop_identifier_end (highest counter : Int) (x : Token)
    (h : x.tt = TokenType.Identifier) :
    checkDegreeLoop highest counter [x] = some (highest, []) := by
  rw [checkDegreeLoop_cons]
  simp [checkDegreeBody, acceptIdentifier, h, checkDegreeLoop_nil]

theorem checkDegreeLoop_identifier_plain (highest counter : Int) (x s : Token) (r : TokenList)
    (h : x.tt = TokenType.Identifier) (hs : ¬ (s.tt = TokenType.Symbol ∧ s.symbol = '^')) :
    checkDegreeLoop highest counter (x :: s :: r) = checkDegreeLoop highest 1 r := by
  rw [checkDegreeLoop_cons]
  simp [checkDegreeBody, acceptIdentifier, acceptCharacter, h, hs]

theorem checkDegreeLoop_identifier_power (highest counter : Int) (x s e : Token)
    (r : TokenList) (h : x.tt = TokenType.Identifier)
    (hs : s.tt = TokenType.Symbol ∧ s.symbol = '^') :
    checkDegreeLoop highest counter (x :: s :: e :: r)
      = checkDegreeLoop
          (if counter = 0 then e.number else if e.number > highest then e.number else highest)
          1 r := by
  rw [checkDegreeLoop_cons]
  simp only [checkDegreeBody, acceptIdentifier, acceptCharacter, h, hs, and_self, if_true]
  split_ifs <;> simp_all

theorem checkDegreeLoop_identifier_power_end (highest counter : Int) (x s : Token)
    (h : x.tt = TokenType.Identifier) (hs : s.tt = TokenType.Symbol ∧ s.symbol = '^') :
    checkDegreeLoop highest counter [x, s] = none := by
  rw [checkDegreeLoop_cons]
  simp [checkDegreeBody, acceptIdentifier, acceptCharacter, h, hs]

theorem identifierExponents_other (tok : Token) (next : TokenList)
    (h : tok.tt ≠ TokenType.Identifier) :
    identifierExponents (tok :: next) = identifierExponents next := by
  simp [identifierExponents, h]

theorem identifierExponents_identifier (tok : Token) (next : TokenList)
    (h : tok.tt = TokenType.Identifier) :
    identifierExponents (tok :: next) = exponentAt next :: identifierExponents next := by
  simp [identifierExponents, h]

theorem exponentAt_plain (s : Token) (r : TokenList)
    (hs : ¬ (s.tt = TokenType.Symbol ∧ s.symbol = '^')) : exponentAt (s :: r) = none := by
  cases r with
  | nil => rfl
  | cons e r2 => simp [exponentAt, hs]

theorem exponentAt_power (s e : Token) (r : TokenList)
    (hs : s.tt = TokenType.Symbol ∧ s.symbol = '^') :
    exponentAt (s :: e :: r) = some e.number := by
  simp [exponentAt, hs]

theorem max_eq_ite (h e : Int) : (if e > h then e else h) = max h e := by
  rcases le_total h e with hle | hle
  · rcases eq_or_lt_of_le hle with heq | hlt
    · subst heq; simp
    · simp [hlt, max_eq_right hle]
  · have : ¬ e > h := not_lt.mpr hle
    simp [this, max_eq_left hle]

/-- The scan of `checkDegree` once `counter` is 1: the maximum of `highest` and the
exponents attached to the identifiers that follow. -/
theorem checkDegreeLoop_counter_one (ts : TokenList) (hsep : IdentifiersSeparated ts)
    (hw : ExponentsWellFormed ts) (highest : Int) :
    checkDegreeLoop highest 1 ts
      = some ((identifierExponents ts).reduceOption.foldl max highest, []) := by
  generalize hn : ts.length = n
  induction n using Nat.strong_induction_on generalizing ts highest with
  | _ n ih =>
    cases ts with
    | nil => simp [checkDegreeLoop_nil, identifierExponents]
    | cons tok next =>
      simp only [List.length_cons] at hn
      by_cases hid : tok.tt = TokenType.Identifier
      · cases next with
        | nil =>
          rw [checkDegreeLoop_identifier_end _ _ tok hid, identifierExponents_identifier _ _ hid]
          simp [identifierExponents, exponentAt]
        | cons s r =>
          have hsym : s.tt = TokenType.Symbol := hsep.1 hid
          have hsid : s.tt ≠ TokenType.Identifier := by rw [hsym]; decide
          simp only [List.length_cons] at hn
          by_cases hs : s.tt = TokenType.Symbol ∧ s.symbol = '^'
          · have hnum : StartsNumber r := hw.2.1 hs
            cases r with
            | nil => exact hnum.elim
            | cons e r2 =>
              have he : e.tt = TokenType.Number := hnum
              have heid : e.tt ≠ TokenType.Identifier := by rw [he]; decide
              simp only [List.length_cons] at hn
              rw [checkDegreeLoop_identifier_power _ _ tok s e r2 hid hs,
                identifierExponents_identifier _ _ hid, exponentAt_power s e r2 hs,
                identifierExponents_other _ _ hsid, identifierExponents_other _ _ heid,
                ih r2.length (by omega) r2 hsep.2.2.2 hw.2.2.2 _ rfl]
              simp [List.reduceOption_cons_of_some, max_eq_ite]
          · rw [checkDegreeLoop_identifier_plain _ _ tok s r hid hs,
              identifierExponents_identifier _ _ hid, exponentAt_plain s r hs,
              identifierExponents_other _ _ hsid,
              ih r.length (by omega) r hsep.2.2 hw.2.2 _ rfl]
            simp [List.reduceOption_cons_of_none]
      · rw [checkDegreeLoop_other _ _ tok next hid, identifierExponents_other _ _ hid,
          ih next.length (by omega) next hsep.2 hw.2 _ rfl]

/-- The scan of `checkDegree` from its initial state `counter = 0`. -/
theorem checkDegreeLoop_counter_zero (ts : TokenList) (hsep : IdentifiersSeparated ts)
    (hw : ExponentsWellFormed ts) (highest : Int) :
    checkDegreeLoop highest 0 ts
      = some ((match identifierExponents ts with
          | [] => highest
          | some e :: rest => rest.reduceOption.foldl max e
          | none :: rest => rest.reduceOption.foldl max highest), []) := by
  induction ts with
  | nil => simp [checkDegreeLoop_nil, identifierExponents]
  | cons tok next ih =>
    by_cases hid : tok.tt = TokenType.Identifier
    · cases next with
      | nil =>
        rw [checkDegreeLoop_identifier_end _ _ tok hid, identifierExponents_identifier _ _ hid]
        simp [identifierExponents, exponentAt]
      | cons s r =>
        have hsym : s.tt = TokenType.Symbol := hsep.1 hid
        have hsid : s.tt ≠ TokenType.Identifier := by rw [hsym]; decide
        by_cases hs : s.tt = TokenType.Symbol ∧ s.symbol = '^'
        · have hnum : StartsNumber r := hw.2.1 hs
          cases r with
          | nil => exact hnum.elim
          | cons e r2 =>
            have he : e.tt = TokenType.Number := hnum
            have heid : e.tt ≠ TokenType.Identifier := by rw [he]; decide
            rw [checkDegreeLoop_identifier_power _ _ tok s e r2 hid hs,
              identifierExponents_identifier _ _ hid, exponentAt_power s e r2 hs,
              identifierExponents_other _ _ hsid, identifierExponents_other _ _ heid,
              checkDegreeLoop_counter_one r2 hsep.2.2.2 hw.2.2.2]
            simp
        · rw [checkDegreeLoop_identifier_plain _ _ tok s r hid hs,
            identifierExponents_identifier _ _ hid, exponentAt_plain s r hs,
            identifierExponents_other _ _ hsid,
            checkDegreeLoop_counter_one r hsep.2.2 hw.2.2]
    · rw [checkDegreeLoop_other _ _ tok next hid, identifierExponents_other _ _ hid,
        ih hsep.2 hw.2]

theorem identifiersSeparated_cons_of_number (tok : Token) (next : TokenList)
    (h : tok.tt = TokenType.Number) (hr : IdentifiersSeparated next) :
    IdentifiersSeparated (tok :: next) :=
  ⟨fun hid => absurd (h.symm.trans hid) (by decide), hr⟩

theorem identifiersSeparated_cons_of_symbol (tok : Token) (next : TokenList)
    (h : tok.tt = TokenType.Symbol) (hr : IdentifiersSeparated next) :
    IdentifiersSeparated (tok :: next) :=
  ⟨fun hid => absurd (h.symm.trans hid) (by decide), hr⟩

theorem identifiersSeparated_monomial_append (m rest : TokenList) (hm : Monomial m)
    (hs : StartsSymbolOrEnd rest) (hr : IdentifiersSeparated rest) :
    IdentifiersSeparated (m ++ rest) := by
  cases hm with
  | number n hn => exact identifiersSeparated_cons_of_number n _ hn hr
  | identifier x hx => exact ⟨fun _ => hs, hr⟩
  | numberIdentifier n x hn hx =>
    exact identifiersSeparated_cons_of_number n _ hn ⟨fun _ => hs, hr⟩
  | identifierPower x c e hx hc hc2 he =>
    exact ⟨fun _ => hc, identifiersSeparated_cons_of_symbol c _ hc
      (identifiersSeparated_cons_of_number e _ he hr)⟩
  | numberIdentifierPower n x c e hn hx hc hc2 he =>
    exact identifiersSeparated_cons_of_number n _ hn
      ⟨fun _ => hc, identifiersSeparated_cons_of_symbol c _ hc
        (identifiersSeparated_cons_of_number e _ he hr)⟩

theorem startsSymbolOrEnd_tail_append (tl rest : TokenList) (htl : MonomialTail tl)
    (hs : StartsSymbolOrEnd rest) : StartsSymbolOrEnd (tl ++ rest) := by
  cases htl with
  | nil => exact hs
  | cons op m tl2 hop hm htl2 => exact hop.1

theorem identifiersSeparated_tail_append (tl rest : TokenList) (htl : MonomialTail tl)
    (hs : StartsSymbolOrEnd rest) (hr : IdentifiersSeparated rest) :
    IdentifiersSeparated (tl ++ rest) := by
  induction htl with
  | nil => exact hr
  | cons op m tl2 hop hm htl2 ih =>
    rw [List.cons_append, List.append_assoc]
    exact identifiersSeparated_cons_of_symbol op _ hop.1
      (identifiersSeparated_monomial_append m _ hm
        (startsSymbolOrEnd_tail_append tl2 rest htl2 hs) ih)

theorem identifiersSeparated_expression_append (e rest : TokenList) (he : Expression e)
    (hs : StartsSymbolOrEnd rest) (hr : IdentifiersSeparated rest) :
    IdentifiersSeparated (e ++ rest) := by
  cases he with
  | plain m tl hm htl =>
    rw [List.append_assoc]
    exact identifiersSeparated_monomial_append m _ hm
      (startsSymbolOrEnd_tail_append tl rest htl hs)
      (identifiersSeparated_tail_append tl rest htl hs hr)
  | negated s m tl hsy hsym hm htl =>
    rw [List.cons_append, List.append_assoc]
    exact identifiersSeparated_cons_of_symbol s _ hsy
      (identifiersSeparated_monomial_append m _ hm
        (startsSymbolOrEnd_tail_append tl rest htl hs)
        (identifiersSeparated_tail_append tl rest htl hs hr))

theorem identifiersSeparated_of_equation (ts : TokenList) (h : Equation ts) :
    IdentifiersSeparated ts := by
  cases h with
  | mk l eq r hl hs hsym hr =>
    have hse : StartsSymbolOrEnd (eq :: r) := hs
    apply identifiersSeparated_expression_append l (eq :: r) hl hse
    apply identifiersSeparated_cons_of_symbol eq _ hs
    simpa using identifiersSeparated_expression_append r [] hr trivial trivial

/-- C7, as the code has it: on a stream on which `acceptEquation` and `isDegree` return
1, `checkDegree` returns, with the cursor at the end, the maximum of the exponents
attached by `^` to identifiers when the first identifier of the stream carries an
exponent, and otherwise the maximum of 1 and those exponents (1 when there is none). -/
theorem checkDegree_of_validated (ts : TokenList) (h1 : (acceptEquation ts ts).1 = 1)
    (h2 : (isDegree ts).1 = 1) : checkDegree ts = some (degreeOf ts, []) := by
  have heq := equation_of_accepted ts ts h1 h2
  have hw := exponentsWellFormed_of_isDegree ts h2
  have hsep := identifiersSeparated_of_equation ts heq
  unfold checkDegree degreeOf
  rw [checkDegreeLoop_counter_zero ts hsep hw 1]

theorem validated_tokensXSq :
    (acceptEquation tokensXSq tokensXSq).1 = 1 ∧ (isDegree tokensXSq).1 = 1 := by
  apply (accepted_iff_equation_of_clean tokensXSq (by decide)).mpr
  exact Equation.mk [mkIdentifier "x", mkSymbol '^', mkNumber 2, mkSymbol '+', mkIdentifier "x"]
    (mkSymbol '=') [mkNumber 0]
    (Expression.plain [mkIdentifier "x", mkSymbol '^', mkNumber 2]
      [mkSymbol '+', mkIdentifier "x"]
      (Monomial.identifierPower _ _ _ rfl rfl rfl rfl)
      (MonomialTail.cons (mkSymbol '+') [mkIdentifier "x"] [] (by decide)
        (Monomial.identifier _ rfl) MonomialTail.nil))
    rfl rfl
    (Expression.plain [mkNumber 0] [] (Monomial.number _ rfl) MonomialTail.nil)

theorem validated_tokensXPlusXPow0 :
    (acceptEquation tokensXPlusXPow0 tokensXPlusXPow0).1 = 1
      ∧ (isDegree tokensXPlusXPow0).1 = 1 := by
  apply (accepted_iff_equation_of_clean tokensXPlusXPow0 (by decide)).mpr
  exact Equation.mk [mkIdentifier "x", mkSymbol '+', mkIdentifier "x", mkSymbol '^', mkNumber 0]
    (mkSymbol '=') [mkNumber 1]
    (Expression.plain [mkIdentifier "x"]
      [mkSymbol '+', mkIdentifier "x", mkSymbol '^', mkNumber 0]
      (Monomial.identifier _ rfl)
      (MonomialTail.cons (mkSymbol '+') [mkIdentifier "x", mkSymbol '^', mkNumber 0] []
        (by decide) (Monomial.identifierPower _ _ _ rfl rfl rfl rfl) MonomialTail.nil))
    rfl rfl
    (Expression.plain [mkNumber 1] [] (Monomial.number _ rfl) MonomialTail.nil)

theorem checkDegree_of_validated_witness :
    ((acceptEquation tokensXSq tokensXSq).1 = 1 ∧ (isDegree tokensXSq).1 = 1)
      ∧ checkDegree tokensXSq = some (2, []) :=
  ⟨validated_tokensXSq,
    (checkDegree_of_validated tokensXSq validated_tokensXSq.1 validated_tokensXSq.2).trans
      (by decide)⟩

/-- C7, counterexample: the tokens of `x+x^0=1` are a validated equation whose only
exponent is 0, so the degree as the claim words it is 0; `checkDegree` returns 1. -/
theorem checkDegree_first_exponent_counterexample :
    ((acceptEquation tokensXPlusXPow0 tokensXPlusXPow0).1 = 1
      ∧ (isDegree tokensXPlusXPow0).1 = 1)
    ∧ claimedDegree tokensXPlusXPow0 = 0
    ∧ checkDegree tokensXPlusXPow0 = some (1, []) := by
  refine ⟨validated_tokensXPlusXPow0, by decide, ?_⟩
  unfold checkDegree tokensXPlusXPow0
  rw [checkDegreeLoop_identifier_plain _ _ _ _ _ rfl (by decide),
    checkDegreeLoop_identifier_power _ _ _ _ _ _ rfl (by decide),
    checkDegreeLoop_other _ _ _ _ (by decide), checkDegreeLoop_other _ _ _ _ (by decide),
    checkDegreeLoop_nil]
  decide

/-! ## Terms with a `^` that no number follows -/

/-- C11: on a stream identifier `^` rest, and on a stream number identifier `^` rest,
where rest is empty or starts with a token that is not a Number, `acceptTerm` returns 1
and the cursor it leaves is rest: the `^` is consumed although no exponent follows. -/
theorem acceptTerm_caret_without_exponent (n x c : Token) (rest : TokenList)
    (hn : n.tt = TokenType.Number) (hx : x.tt = TokenType.Identifier)
    (hc : c.tt = TokenType.Symbol ∧ c.symbol = '^') (hr : ¬ StartsNumber rest) :
    acceptTerm (x :: c :: rest) = (1, rest)
    ∧ acceptTerm (n :: x :: c :: rest) = (1, rest) := by
  cases rest with
  | nil =>
    constructor <;>
      simp [acceptTerm, acceptNumber, acceptIdentifier, acceptCharacter, hn, hx, hc]
  | cons e after =>
    have he : ¬ e.tt = TokenType.Number := hr
    constructor <;>
      simp [acceptTerm, acceptNumber, acceptIdentifier, acceptCharacter, hn, hx, hc, he]

theorem acceptTerm_caret_without_exponent_witness :
    ¬ StartsNumber [mkSymbol '=', mkNumber 1]
    ∧ acceptTerm (mkIdentifier "x" :: mkSymbol '^' :: [mkSymbol '=', mkNumber 1])
        = (1, [mkSymbol '=', mkNumber 1])
    ∧ acceptTerm (mkNumber 3 :: mkIdentifier "x" :: mkSymbol '^' :: [mkSymbol '=', mkNumber 1])
        = (1, [mkSymbol '=', mkNumber 1]) :=
  ⟨by decide,
    acceptTerm_caret_without_exponent (mkNumber 3) (mkIdentifier "x") (mkSymbol '^')
      [mkSymbol '=', mkNumber 1] rfl rfl (by decide) (by decide)⟩

/-! ## The cursor of `countEquals` -/

/-- C13: whatever the stream and the result, `countEquals` leaves its cursor at the end
of the stream; its result is 1 or 0. -/
theorem countEquals_cursor_at_end (lp : TokenList) :
    (countEquals lp).2 = [] ∧ ((countEquals lp).1 = 1 ∨ (countEquals lp).1 = 0) := by
  rw [countEquals_eq]
  refine ⟨rfl, ?_⟩
  by_cases h : countSymbolRead '=' lp = 1
  · left; simp [h]
  · right; simp [h]

/-! ## The test for `-` in `isDegree` -/

theorem isDegreeWithoutSignCheck_other (tok : Token) (next : TokenList)
    (h : tok.symbol ≠ '^') :
    isDegreeWithoutSignCheck (tok :: next) = isDegreeWithoutSignCheck next := by
  rw [isDegreeWithoutSignCheck.eq_def]
  simp [h]

theorem isDegreeWithoutSignCheck_eq (lp : TokenList) :
    isDegree lp = isDegreeWithoutSignCheck lp := by
  generalize hn : lp.length = n
  induction n using Nat.strong_induction_on generalizing lp with
  | _ n ih =>
    cases lp with
    | nil => rw [isDegree_nil]; rfl
    | cons tok next =>
      simp only [List.length_cons] at hn
      by_cases h : tok.symbol = '^'
      · cases next with
        | nil => rw [isDegree_caret_end tok h]; simp [isDegreeWithoutSignCheck, h]
        | cons e after =>
          simp only [List.length_cons] at hn
          rw [isDegree_caret_cons tok e after h]
          simp only [isDegreeWithoutSignCheck, h, if_true]
          by_cases he : e.tt = TokenType.Number
          · simp only [he, ne_eq, not_true_eq_false, if_false]
            exact ih after.length (by omega) after rfl
          · simp [he]
      · rw [isDegree_other tok next h, isDegreeWithoutSignCheck_other tok next h]
        exact ih next.length (by omega) next rfl

/-- C14: `isDegree` returns the same result and leaves the same cursor as the variant
without the disjunct `acceptCharacter(lp,'-')`; on a cursor whose token is a Number,
where alone that call is made, it returns 0 and leaves the cursor where it was. -/
theorem isDegree_sign_check_is_dead (lp : TokenList) :
    isDegree lp = isDegreeWithoutSignCheck lp
    ∧ (∀ (e : Token) (after : TokenList), e.tt = TokenType.Number →
        acceptCharacter (e :: after) '-' = (0, e :: after)) := by
  refine ⟨isDegreeWithoutSignCheck_eq lp, ?_⟩
  intro e after he
  simp [acceptCharacter, he]

/-! ## Classification of the example lines -/

theorem acceptEquation_of_countEquals_zero (lp lp1 : TokenList)
    (h : (countEquals lp1).1 = 0) : (acceptEquation lp lp1).1 = 0 := by
  unfold acceptEquation
  simp [h]

theorem recognizeEquationLine_tokensXPlus3Eq7 :
    recognizeEquationLine tokensXPlus3Eq7 = some (Verdict.oneVariable 1) := by
  have h := (accepted_iff_equation_of_clean tokensXPlus3Eq7 (by decide)).mpr
    equation_tokensXPlus3Eq7
  have hv : (acceptVariables tokensXPlus3Eq7).1 = 1 := by decide
  have hd : checkDegree tokensXPlus3Eq7 = some (1, []) := by
    unfold checkDegree tokensXPlus3Eq7
    rw [checkDegreeLoop_identifier_plain _ _ _ _ _ rfl (by decide),
      checkDegreeLoop_other _ _ _ _ (by decide), checkDegreeLoop_other _ _ _ _ (by decide),
      checkDegreeLoop_other _ _ _ _ (by decide), checkDegreeLoop_nil]
  unfold recognizeEquationLine
  rw [h.1, h.2, hv, hd]
  rfl

theorem recognizeEquationLine_tokensXSqMinus4 :
    recognizeEquationLine tokensXSqMinus4 = some (Verdict.oneVariable 2) := by
  have heq : Equation tokensXSqMinus4 :=
    Equation.mk [mkIdentifier "x", mkSymbol '^', mkNumber 2, mkSymbol '-', mkNumber 4]
      (mkSymbol '=') [mkNumber 0]
      (Expression.plain [mkIdentifier "x", mkSymbol '^', mkNumber 2]
        [mkSymbol '-', mkNumber 4]
        (Monomial.identifierPower _ _ _ rfl rfl rfl rfl)
        (MonomialTail.cons (mkSymbol '-') [mkNumber 4] [] (by decide)
          (Monomial.number _ rfl) MonomialTail.nil))
      rfl rfl
      (Expression.plain [mkNumber 0] [] (Monomial.number _ rfl) MonomialTail.nil)
  have h := (accepted_iff_equation_of_clean tokensXSqMinus4 (by decide)).mpr heq
  have hv : (acceptVariables tokensXSqMinus4).1 = 1 := by decide
  have hd : checkDegree tokensXSqMinus4 = some (2, []) := by
    unfold checkDegree tokensXSqMinus4
    rw [checkDegreeLoop_identifier_power _ _ _ _ _ _ rfl (by decide),
      checkDegreeLoop_other _ _ _ _ (by decide), checkDegreeLoop_other _ _ _ _ (by decide),
      checkDegreeLoop_other _ _ _ _ (by decide), checkDegreeLoop_other _ _ _ _ (by decide),
      checkDegreeLoop_nil]
    rfl
  unfold recognizeEquationLine
  rw [h.1, h.2, hv, hd]
  rfl

theorem recognizeEquationLine_tokensXPlusYEq5 :
    recognizeEquationLine tokensXPlusYEq5 = some Verdict.notOneVariable := by
  have heq : Equation tokensXPlusYEq5 :=
    Equation.mk [mkIdentifier "x", mkSymbol '+', mkIdentifier "y"] (mkSymbol '=') [mkNumber 5]
      (Expression.plain [mkIdentifier "x"] [mkSymbol '+', mkIdentifier "y"]
        (Monomial.identifier _ rfl)
        (MonomialTail.cons (mkSymbol '+') [mkIdentifier "y"] [] (by decide)
          (Monomial.identifier _ rfl) MonomialTail.nil))
      rfl rfl
      (Expression.plain [mkNumber 5] [] (Monomial.number _ rfl) MonomialTail.nil)
  have h := (accepted_iff_equation_of_clean tokensXPlusYEq5 (by decide)).mpr heq
  have hv : (acceptVariables tokensXPlusYEq5).1 = 0 := by decide
  unfold recognizeEquationLine
  rw [h.1, h.2, hv]
  rfl

theorem recognizeEquationLine_tokens3Plus4 :
    recognizeEquationLine tokens3Plus4 = some Verdict.notEquation := by
  have h := acceptEquation_of_countEquals_zero tokens3Plus4 tokens3Plus4 (by decide)
  unfold recognizeEquationLine
  rw [h]
  rfl

/-- C12: the classification of one line gives, on the tokens of `x + 3 = 7`, an equation
in 1 variable of degree 1; on those of `x^2 - 4 = 0`, an equation in 1 variable of
degree 2; on those of `x + y = 5`, an equation but not in 1 variable; on those of
`3 + 4`, not an equation. -/
theorem recognizeEquationLine_examples :
    recognizeEquationLine tokensXPlus3Eq7 = some (Verdict.oneVariable 1)
    ∧ recognizeEquationLine tokensXSqMinus4 = some (Verdict.oneVariable 2)
    ∧ recognizeEquationLine tokensXPlusYEq5 = some Verdict.notOneVariable
    ∧ recognizeEquationLine tokens3Plus4 = some Verdict.notEquation :=
  ⟨recognizeEquationLine_tokensXPlus3Eq7, recognizeEquationLine_tokensXSqMinus4,
    recognizeEquationLine_tokensXPlusYEq5, recognizeEquationLine_tokens3Plus4⟩

/-! ## The `countEquals` check of `acceptEquation` -/

theorem acceptEquation_fst_eq (lp lp1 : TokenList) :
    (acceptEquation lp lp1).1
      = if (countEquals lp1).1 = 0 then 0 else (acceptEquationWithoutCount lp).1 := by
  unfold acceptEquation acceptEquationWithoutCount
  simp only []
  split_ifs <;> rfl

theorem acceptNumber_countSymbol (c : Char) (lp : TokenList) :
    countSymbol c (acceptNumber lp).2 = countSymbol c lp := by
  cases lp with
  | nil => rfl
  | cons tok next =>
    by_cases h : tok.tt = TokenType.Number
    · simp [acceptNumber, h, countSymbol_cons]
    · simp [acceptNumber, h]

theorem acceptIdentifier_countSymbol (c : Char) (lp : TokenList) :
    countSymbol c (acceptIdentifier lp).2 = countSymbol c lp := by
  cases lp with
  | nil => rfl
  | cons tok next =>
    by_cases h : tok.tt = TokenType.Identifier
    · simp [acceptIdentifier, h, countSymbol_cons]
    · simp [acceptIdentifier, h]

theorem acceptCharacter_countSymbol (c d : Char) (lp : TokenList) (hcd : d ≠ c) :
    countSymbol c (acceptCharacter lp d).2 = countSymbol c lp := by
  cases lp with
  | nil => rfl
  | cons tok next =>
    by_cases h : tok.tt = TokenType.Symbol ∧ tok.symbol = d
    · simp [acceptCharacter, h, countSymbol_cons, hcd]
    · simp [acceptCharacter, h]

theorem acceptTerm_countSymbol_equals (lp : TokenList) :
    countSymbol '=' (acceptTerm lp).2 = countSymbol '=' lp := by
  have a1 := acceptNumber_countSymbol '=' lp
  have a2 := (acceptIdentifier_countSymbol '=' (acceptNumber lp).2).trans a1
  have a3 := (acceptCharacter_countSymbol '=' '^' (acceptIdentifier (acceptNumber lp).2).2
    (by decide)).trans a2
  have a4 := (acceptNumber_countSymbol '='
    (acceptCharacter (acceptIdentifier (acceptNumber lp).2).2 '^').2).trans a3
  unfold acceptTerm
  simp only []
  split_ifs <;> first | exact a1 | exact a2 | exact a3 | exact a4

theorem acceptExpressionLoop_countSymbol_equals (lp : TokenList) :
    countSymbol '=' (acceptExpressionLoop lp).2 = countSymbol '=' lp := by
  generalize hn : lp.length = n
  induction n using Nat.strong_induction_on generalizing lp with
  | _ n ih =>
    cases lp with
    | nil => rw [acceptExpressionLoop_nil]
    | cons tok next =>
      simp only [List.length_cons] at hn
      by_cases hop : tok.tt = TokenType.Symbol ∧ (tok.symbol = '+' ∨ tok.symbol = '-')
      · have hne : ¬ tok.symbol = '=' := by
          rcases hop.2 with h | h <;> rw [h] <;> decide
        have hcons : countSymbol '=' (tok :: next) = countSymbol '=' next := by
          simp [countSymbol_cons, hne]
        rw [acceptExpressionLoop_op tok next hop, hcons]
        split_ifs
        · exact acceptTerm_countSymbol_equals next
        · have hlen : (acceptTerm next).2.length < n := by
            have := (acceptTerm_suffix next).length_le
            omega
          rw [ih _ hlen (acceptTerm next).2 rfl]
          exact acceptTerm_countSymbol_equals next
      · rw [acceptExpressionLoop_other tok next hop]

theorem acceptExpression_countSymbol_equals (lp : TokenList) :
    countSymbol '=' (acceptExpression lp).2 = countSymbol '=' lp := by
  have h1 := (acceptTerm_countSymbol_equals (acceptCharacter lp '-').2).trans
    (acceptCharacter_countSymbol '=' '-' lp (by decide))
  rw [acceptExpression_eq]
  split_ifs
  · exact h1
  · exact (acceptExpressionLoop_countSymbol_equals _).trans h1

/-- When the expression, the `=` and the second expression are accepted and the cursor
ends at the end of the stream, the stream has exactly one `=` symbol token. -/
theorem countSymbol_of_acceptEquationWithoutCount (ts : TokenList)
    (h : (acceptEquationWithoutCount ts).1 = 1) : countSymbol '=' ts = 1 := by
  unfold acceptEquationWithoutCount at h
  simp only [] at h
  split_ifs at h with h1 h2 h3 h4
  all_goals try (simp at h)
  obtain ⟨eq, next, hlp, hs, hsym, hcs⟩ := acceptCharacter_success _ '=' h2
  rw [hcs] at h4
  have hend : (acceptExpression next).2 = [] := by
    by_contra hne
    exact h4 hne
  have c1 := acceptExpression_countSymbol_equals ts
  have c2 := acceptExpression_countSymbol_equals next
  rw [hend, countSymbol_nil] at c2
  rw [hlp, countSymbol_cons, ← c2] at c1
  simp [hs, hsym] at c1
  exact c1.symm

theorem countSymbol_of_acceptEquationWithoutCount_witness :
    (acceptEquationWithoutCount tokens1Eq61).1 = 1 ∧ countSymbol '=' tokens1Eq61 = 1 := by
  have h : (acceptEquationWithoutCount tokens1Eq61).1 = 1 := by
    have e1 : acceptExpression tokens1Eq61 = (1, [mkSymbol '=', mkNumber 61]) :=
      acceptExpression_of_expression [mkNumber 1] [mkSymbol '=', mkNumber 61]
        (Expression.plain [mkNumber 1] [] (Monomial.number _ rfl) MonomialTail.nil)
        ⟨rfl, by decide⟩ (by decide)
    have e2 : acceptExpression [mkNumber 61] = (1, []) :=
      acceptExpression_of_expression [mkNumber 61] []
        (Expression.plain [mkNumber 61] [] (Monomial.number _ rfl) MonomialTail.nil)
        trivial (fun h => h)
    have e3 : acceptCharacter [mkSymbol '=', mkNumber 61] '=' = (1, [mkNumber 61]) := by decide
    unfold acceptEquationWithoutCount
    simp [e1, e2, e3]
  exact ⟨h, countSymbol_of_acceptEquationWithoutCount tokens1Eq61 h⟩

/-- On a stream in which no Number or Identifier token reads `=` through `t.symbol`, the
result of `acceptEquation` is that of the variant without the `countEquals` check. -/
theorem acceptEquation_eq_withoutCount_of_clean (ts : TokenList) (hc : SymbolReadsClean ts) :
    (acceptEquation ts ts).1 = (acceptEquationWithoutCount ts).1 := by
  rw [acceptEquation_fst_eq, countEquals_eq, countSymbolRead_of_clean ts hc]
  by_cases h : countSymbol '=' ts = 1
  · simp [h]
  · have hv : (acceptEquationWithoutCount ts).1 ≠ 1 :=
      fun h1 => h (countSymbol_of_acceptEquationWithoutCount ts h1)
    have h01 : (acceptEquationWithoutCount ts).1 = 0 := by
      unfold acceptEquationWithoutCount at hv ⊢
      simp only [] at hv ⊢
      split_ifs at hv ⊢ <;> first | rfl | exact absurd rfl hv
    simp [h, h01]

theorem acceptEquation_eq_withoutCount_of_clean_witness :
    SymbolReadsClean tokensXPlus3Eq7
    ∧ (acceptEquation tokensXPlus3Eq7 tokensXPlus3Eq7).1
        = (acceptEquationWithoutCount tokensXPlus3Eq7).1 :=
  ⟨by decide, acceptEquation_eq_withoutCount_of_clean tokensXPlus3Eq7 (by decide)⟩

/-- C16, at the tokens of `1=61`: the expression, the `=` and the second expression are
accepted and the cursor ends at the end of the stream, and the stream has exactly one
`=` symbol token; yet `countEquals` returns 0, because the number 61 reads `=` through
`t.symbol`, so `acceptEquation` returns 0 where the variant without the check
returns 1. -/
theorem countEquals_check_not_redundant_1Eq61 :
    (acceptEquationWithoutCount tokens1Eq61).1 = 1
    ∧ countSymbol '=' tokens1Eq61 = 1
    ∧ countEquals tokens1Eq61 = (0, [])
    ∧ (acceptEquation tokens1Eq61 tokens1Eq61).1 = 0 := by
  have h := countSymbol_of_acceptEquationWithoutCount_witness
  have hc : countEquals tokens1Eq61 = (0, []) := by decide
  refine ⟨h.1, h.2, hc, ?_⟩
  rw [acceptEquation_fst_eq, hc]
  rfl

/-! ## The run of `checkDegree`, pass by pass -/

theorem checkDegreeTrace_nil (highest counter : Int) :
    checkDegreeTrace highest counter [] = [] := by
  rw [checkDegreeTrace.eq_def]

theorem checkDegreeTrace_cons (highest counter : Int) (tok : Token) (next : TokenList) :
    checkDegreeTrace highest counter (tok :: next)
      = (tok :: next, checkDegreeRead (tok :: next)) ::
          match checkDegreeBody highest counter (tok :: next) with
          | none => []
          | some r => checkDegreeTrace r.1 r.2.1 r.2.2.tail := by
  rw [checkDegreeTrace.eq_def]
  simp only []
  congr 1
  split
  · next h => rw [h]
  · next a b c h => rw [h]

theorem checkDegreeTrace_other (highest counter : Int) (tok : Token) (next : TokenList)
    (h : tok.tt ≠ TokenType.Identifier) :
    checkDegreeTrace highest counter (tok :: next)
      = (tok :: next, none) :: checkDegreeTrace highest counter next := by
  rw [checkDegreeTrace_cons]
  simp [checkDegreeBody, checkDegreeRead, acceptIdentifier, h]

theorem checkDegreeTrace_identifier_end (highest counter : Int) (x : Token)
    (h : x.tt = TokenType.Identifier) :
    checkDegreeTrace highest counter [x] = [([x], none)] := by
  rw [checkDegreeTrace_cons]
  simp [checkDegreeBody, checkDegreeRead, acceptIdentifier, h, checkDegreeTrace_nil]

theorem checkDegreeTrace_identifier_plain (highest counter : Int) (x s : Token)
    (r : TokenList) (h : x.tt = TokenType.Identifier)
    (hs : ¬ (s.tt = TokenType.Symbol ∧ s.symbol = '^')) :
    checkDegreeTrace highest counter (x :: s :: r)
      = (x :: s :: r, none) :: checkDegreeTrace highest 1 r := by
  rw [checkDegreeTrace_cons]
  simp [checkDegreeBody, checkDegreeRead, acceptIdentifier, acceptCharacter, h, hs]

theorem checkDegreeTrace_identifier_power (highest counter : Int) (x s e : Token)
    (r : TokenList) (h : x.tt = TokenType.Identifier)
    (hs : s.tt = TokenType.Symbol ∧ s.symbol = '^') :
    checkDegreeTrace highest counter (x :: s :: e :: r)
      = (x :: s :: e :: r, some (e :: r)) ::
          checkDegreeTrace
            (if counter = 0 then e.number else if e.number > highest then e.number
              else highest)
            1 r := by
  rw [checkDegreeTrace_cons]
  simp only [checkDegreeBody, checkDegreeRead, acceptIdentifier, acceptCharacter, h, hs,
    and_self, if_true]
  split_ifs <;> simp_all

theorem checkDegreeTrace_identifier_power_end (highest counter : Int) (x s : Token)
    (h : x.tt = TokenType.Identifier) (hs : s.tt = TokenType.Symbol ∧ s.symbol = '^') :
    checkDegreeTrace highest counter [x, s] = [([x, s], some [])] := by
  rw [checkDegreeTrace_cons]
  simp [checkDegreeBody, checkDegreeRead, acceptIdentifier, acceptCharacter, h, hs]

/-- On a stream whose `^` symbols are all followed by a number, the loop of `checkDegree`
returns, and every read of `number` in its run is at a Number token. -/
theorem checkDegreeLoop_reads_number (lp : TokenList) (hw : ExponentsWellFormed lp)
    (highest counter : Int) :
    (∃ r, checkDegreeLoop highest counter lp = some r)
    ∧ ∀ it ∈ checkDegreeTrace highest counter lp, ∀ rc, it.2 = some rc → StartsNumber rc := by
  generalize hn : lp.length = n
  induction n using Nat.strong_induction_on generalizing lp highest counter with
  | _ n ih =>
    cases lp with
    | nil =>
      rw [checkDegreeLoop_nil, checkDegreeTrace_nil]
      exact ⟨⟨_, rfl⟩, fun it hit => by cases hit⟩
    | cons tok next =>
      simp only [List.length_cons] at hn
      by_cases hid : tok.tt = TokenType.Identifier
      · cases next with
        | nil =>
          rw [checkDegreeLoop_identifier_end _ _ tok hid,
            checkDegreeTrace_identifier_end _ _ tok hid]
          refine ⟨⟨_, rfl⟩, ?_⟩
          intro it hit rc hrc
          rw [List.mem_singleton] at hit
          subst hit
          cases hrc
        | cons s r =>
          simp only [List.length_cons] at hn
          by_cases hs : s.tt = TokenType.Symbol ∧ s.symbol = '^'
          · have hnum : StartsNumber r := hw.2.1 hs
            cases r with
            | nil => exact hnum.elim
            | cons e r2 =>
              simp only [List.length_cons] at hn
              rw [checkDegreeLoop_identifier_power _ _ tok s e r2 hid hs,
                checkDegreeTrace_identifier_power _ _ tok s e r2 hid hs]
              obtain ⟨ih1, ih2⟩ := ih r2.length (by omega) r2 hw.2.2.2
                (if counter = 0 then e.number else if e.number > highest then e.number
                  else highest) 1 rfl
              refine ⟨ih1, ?_⟩
              intro it hit rc hrc
              rcases List.mem_cons.mp hit with h | h
              · subst h
                cases hrc
                exact hnum
              · exact ih2 it h rc hrc
          · rw [checkDegreeLoop_identifier_plain _ _ tok s r hid hs,
              checkDegreeTrace_identifier_plain _ _ tok s r hid hs]
            obtain ⟨ih1, ih2⟩ := ih r.length (by omega) r hw.2.2 highest 1 rfl
            refine ⟨ih1, ?_⟩
            intro it hit rc hrc
            rcases List.mem_cons.mp hit with h | h
            · subst h
              cases hrc
            · exact ih2 it h rc hrc
      · rw [checkDegreeLoop_other _ _ tok next hid, checkDegreeTrace_other _ _ tok next hid]
        obtain ⟨ih1, ih2⟩ := ih next.length (by omega) next hw.2 highest counter rfl
        refine ⟨ih1, ?_⟩
        intro it hit rc hrc
        rcases List.mem_cons.mp hit with h | h
        · subst h
          cases hrc
        · exact ih2 it h rc hrc

/-- C17: on a stream on which `isDegree` returns 1, `checkDegree` returns (it does not
read past the end of the stream), and every time its run reads `number` after an
identifier and a `^`, the token at the cursor exists and is a Number. -/
theorem checkDegree_reads_number_of_isDegree (ts : TokenList) (h : (isDegree ts).1 = 1) :
    (∃ r, checkDegree ts = some r)
    ∧ ∀ it ∈ checkDegreeTrace 1 0 ts, ∀ rc, it.2 = some rc → StartsNumber rc :=
  checkDegreeLoop_reads_number ts (exponentsWellFormed_of_isDegree ts h) 1 0

theorem isDegree_tokensXSq : (isDegree tokensXSq).1 = 1 := by
  unfold tokensXSq
  rw [isDegree_other _ _ (by decide), isDegree_caret_cons _ _ _ (by decide)]
  simp only [mkNumber, ne_eq, not_true_eq_false, if_false]
  rw [isDegree_other _ _ (by decide), isDegree_other _ _ (by decide),
    isDegree_other _ _ (by decide), isDegree_other _ _ (by decide), isDegree_nil]

theorem checkDegree_reads_number_of_isDegree_witness :
    (isDegree tokensXSq).1 = 1
    ∧ (∃ r, checkDegree tokensXSq = some r)
    ∧ ∀ it ∈ checkDegreeTrace 1 0 tokensXSq, ∀ rc, it.2 = some rc → StartsNumber rc :=
  ⟨isDegree_tokensXSq, checkDegree_reads_number_of_isDegree tokensXSq isDegree_tokensXSq⟩

/-! ## The degree when every exponent is at least 1 -/

/-- On a stream whose identifiers are followed by a symbol or by nothing and whose `^`
symbols are followed by a number, every identifier of the stream is at the cursor at the
start of a pass of the loop of `checkDegree`. -/
theorem checkDegreeTrace_visits_identifiers (lp : TokenList)
    (hsep : IdentifiersSeparated lp) (hw : ExponentsWellFormed lp) (highest counter : Int)
    (x : Token) (rest : TokenList) (hsuf : (x :: rest) <:+ lp)
    (hx : x.tt = TokenType.Identifier) :
    ∃ it ∈ checkDegreeTrace highest counter lp, it.1 = x :: rest := by
  generalize hn : lp.length = n
  induction n using Nat.strong_induction_on generalizing lp highest counter with
  | _ n ih =>
    cases lp with
    | nil => simp at hsuf
    | cons tok next =>
      simp only [List.length_cons] at hn
      rcases List.suffix_cons_iff.mp hsuf with heq | hsuf1
      · rw [checkDegreeTrace_cons, heq]
        exact ⟨_, List.mem_cons_self _ _, rfl⟩
      by_cases hid : tok.tt = TokenType.Identifier
      · cases next with
        | nil => simp at hsuf1
        | cons s r =>
          simp only [List.length_cons] at hn
          have hsym : s.tt = TokenType.Symbol := hsep.1 hid
          rcases List.suffix_cons_iff.mp hsuf1 with heq | hsuf2
          · cases heq
            rw [hsym] at hx
            cases hx
          by_cases hs : s.tt = TokenType.Symbol ∧ s.symbol = '^'
          · have hnum : StartsNumber r := hw.2.1 hs
            cases r with
            | nil => exact hnum.elim
            | cons e r2 =>
              simp only [List.length_cons] at hn
              have he : e.tt = TokenType.Number := hnum
              rcases List.suffix_cons_iff.mp hsuf2 with heq | hsuf3
              · cases heq
                rw [he] at hx
                cases hx
              rw [checkDegreeTrace_identifier_power _ _ tok s e r2 hid hs]
              obtain ⟨it, hit, hit1⟩ := ih r2.length (by omega) r2 hsep.2.2.2 hw.2.2.2
                (if counter = 0 then e.number else if e.number > highest then e.number
                  else highest) 1 hsuf3 rfl
              exact ⟨it, List.mem_cons_of_mem _ hit, hit1⟩
          · rw [checkDegreeTrace_identifier_plain _ _ tok s r hid hs]
            obtain ⟨it, hit, hit1⟩ := ih r.length (by omega) r hsep.2.2 hw.2.2 highest 1
              hsuf2 rfl
            exact ⟨it, List.mem_cons_of_mem _ hit, hit1⟩
      · rw [checkDegreeTrace_other _ _ tok next hid]
        obtain ⟨it, hit, hit1⟩ := ih next.length (by omega) next hsep.2 hw.2 highest counter
          hsuf1 rfl
        exact ⟨it, List.mem_cons_of_mem _ hit, hit1⟩

theorem foldl_max_perm (l1 l2 : List Int) (p : l1.Perm l2) (init : Int) :
    l1.foldl max init = l2.foldl max init := by
  induction p generalizing init with
  | nil => rfl
  | cons x _ ih => exact ih (max init x)
  | swap x y l =>
    simp only [List.foldl_cons]
    rw [sup_right_comm]
  | trans _ _ ih1 ih2 => exact (ih1 init).trans (ih2 init)

/-- The result of `checkDegree` on a validated equation whose exponents are all at
least 1. -/
theorem checkDegree_eq_foldl_max (ts : TokenList) (h1 : (acceptEquation ts ts).1 = 1)
    (h2 : (isDegree ts).1 = 1) (h3 : ∀ e ∈ attachedExponents ts, 1 ≤ e) :
    checkDegree ts = some ((attachedExponents ts).foldl max 1, []) := by
  have heq := equation_of_accepted ts ts h1 h2
  have hw := exponentsWellFormed_of_isDegree ts h2
  have hsep := identifiersSeparated_of_equation ts heq
  unfold checkDegree
  rw [checkDegreeLoop_counter_zero ts hsep hw 1]
  unfold attachedExponents at h3 ⊢
  cases hl : identifierExponents ts with
  | nil => rfl
  | cons o rest =>
    cases o with
    | none => simp [List.reduceOption_cons_of_none]
    | some e =>
      have he : 1 ≤ e := by
        apply h3
        rw [hl, List.reduceOption_cons_of_some]
        exact List.mem_cons_self _ _
      simp [List.reduceOption_cons_of_some, max_eq_right he]

/-- C15: on a validated equation in which every exponent attached to an identifier is at
least 1, every identifier of the stream is at the cursor at the start of a pass of the
loop of `checkDegree` (no step of the cursor skips an identifier), and `checkDegree`
returns the maximum of 1 and those exponents: the greatest element of the list made of 1
and the exponents, which is the same for any other such equation whose exponents are
these in another order. -/
theorem checkDegree_max_of_validated (ts : TokenList) (h1 : (acceptEquation ts ts).1 = 1)
    (h2 : (isDegree ts).1 = 1) (h3 : ∀ e ∈ attachedExponents ts, 1 ≤ e) :
    (∀ (x : Token) (rest : TokenList), (x :: rest) <:+ ts → x.tt = TokenType.Identifier →
        ∃ it ∈ checkDegreeTrace 1 0 ts, it.1 = x :: rest)
    ∧ (∃ d, checkDegree ts = some (d, []) ∧ d = (attachedExponents ts).foldl max 1
        ∧ d ∈ 1 :: attachedExponents ts ∧ ∀ e ∈ 1 :: attachedExponents ts, e ≤ d)
    ∧ (∀ ts2 : TokenList, (acceptEquation ts2 ts2).1 = 1 → (isDegree ts2).1 = 1 →
        (∀ e ∈ attachedExponents ts2, 1 ≤ e) →
        (attachedExponents ts2).Perm (attachedExponents ts) →
        checkDegree ts2 = checkDegree ts) := by
  have heq := equation_of_accepted ts ts h1 h2
  have hw := exponentsWellFormed_of_isDegree ts h2
  have hsep := identifiersSeparated_of_equation ts heq
  refine ⟨?_, ?_, ?_⟩
  · intro x rest hsuf hx
    exact checkDegreeTrace_visits_identifiers ts hsep hw 1 0 x rest hsuf hx
  · refine ⟨_, checkDegree_eq_foldl_max ts h1 h2 h3, rfl, ?_, ?_⟩
    · have key : ∀ (l : List Int) (init : Int), l.foldl max init ∈ init :: l := by
        intro l
        induction l with
        | nil => intro init; simp
        | cons a l ih =>
          intro init
          rw [List.foldl_cons]
          rcases List.mem_cons.mp (ih (max init a)) with h | h
          · rw [h]
            rcases max_choice init a with hm | hm
            · rw [hm]; exact List.mem_cons_self _ _
            · rw [hm]; exact List.mem_cons_of_mem _ (List.mem_cons_self _ _)
          · exact List.mem_cons_of_mem _ (List.mem_cons_of_mem _ h)
      exact key _ 1
    · have key : ∀ (l : List Int) (init : Int), ∀ e ∈ init :: l, e ≤ l.foldl max init := by
        intro l
        induction l with
        | nil =>
          intro init e he
          rw [List.mem_singleton] at he
          rw [he]; exact le_refl _
        | cons a l ih =>
          intro init e he
          rw [List.foldl_cons]
          rcases List.mem_cons.mp he with h | h
          · rw [h]
            exact le_trans (le_max_left init a) (ih (max init a) _ (List.mem_cons_self _ _))
          · rcases List.mem_cons.mp h with h | h
            · rw [h]
              exact le_trans (le_max_right init a)
                (ih (max init a) _ (List.mem_cons_self _ _))
            · exact ih (max init a) e (List.mem_cons_of_mem _ h)
      exact key _ 1
  · intro ts2 g1 g2 g3 hp
    rw [checkDegree_eq_foldl_max ts h1 h2 h3, checkDegree_eq_foldl_max ts2 g1 g2 g3,
      foldl_max_perm _ _ hp 1]

theorem checkDegree_max_of_validated_witness :
    ((acceptEquation tokensXSq tokensXSq).1 = 1 ∧ (isDegree tokensXSq).1 = 1
      ∧ ∀ e ∈ attachedExponents tokensXSq, 1 ≤ e)
    ∧ ∃ d, checkDegree tokensXSq = some (d, []) ∧ d = (attachedExponents tokensXSq).foldl max 1
        ∧ d ∈ 1 :: attachedExponents tokensXSq ∧ ∀ e ∈ 1 :: attachedExponents tokensXSq, e ≤ d :=
  ⟨⟨validated_tokensXSq.1, validated_tokensXSq.2, by decide⟩,
    (checkDegree_max_of_validated tokensXSq validated_tokensXSq.1 validated_tokensXSq.2
      (by decide)).2.1⟩

/-! ## Termination and cursors -/

theorem acceptEquation_suffix (lp lp1 : TokenList) :
    (acceptEquation lp lp1).2.1 <:+ lp ∧ (acceptEquation lp lp1).2.2 <:+ lp1 := by
  have h1 := acceptExpression_suffix lp
  have h2 := (acceptCharacter_suffix (acceptExpression lp).2 '=').trans h1
  have h3 := (acceptExpression_suffix (acceptCharacter (acceptExpression lp).2 '=').2).trans h2
  have hc : (countEquals lp1).2 <:+ lp1 := by
    rw [countEquals_eq]; exact List.nil_suffix
  unfold acceptEquation
  simp only []
  split_ifs <;> refine ⟨?_, hc⟩ <;>
    first | exact List.suffix_refl _ | exact h1 | exact h2 | exact h3

theorem acceptVariablesLoop_suffix (same numVar : Int) (tempList lp : TokenList) :
    (acceptVariablesLoop same numVar tempList lp).2.2 <:+ lp := by
  induction lp generalizing same numVar tempList with
  | nil => exact List.suffix_refl _
  | cons tok next ih =>
    by_cases ht : tok.tt = TokenType.Identifier
    · cases tempList with
      | nil =>
        simp only [acceptVariablesLoop, ht, if_true]
        exact (ih _ _ _).trans (List.suffix_cons tok next)
      | cons first tl =>
        simp only [acceptVariablesLoop, ht, if_true]
        split_ifs
        · exact (ih _ _ _).trans (List.suffix_cons tok next)
        · exact List.suffix_refl _
    · simp only [acceptVariablesLoop, ht, if_false]
      exact (ih _ _ _).trans (List.suffix_cons tok next)

theorem acceptVariables_suffix (lp : TokenList) : (acceptVariables lp).2 <:+ lp :=
  acceptVariablesLoop_suffix 1 0 [] lp

theorem isDegree_suffix (lp : TokenList) : (isDegree lp).2 <:+ lp := by
  generalize hn : lp.length = n
  induction n using Nat.strong_induction_on generalizing lp with
  | _ n ih =>
    cases lp with
    | nil => rw [isDegree_nil]
    | cons tok next =>
      simp only [List.length_cons] at hn
      by_cases h : tok.symbol = '^'
      · cases next with
        | nil => rw [isDegree_caret_end tok h]; exact List.nil_suffix
        | cons e after =>
          simp only [List.length_cons] at hn
          rw [isDegree_caret_cons tok e after h]
          split_ifs
          · exact List.suffix_cons tok (e :: after)
          · exact (ih after.length (by omega) after rfl).trans
              ((List.suffix_cons e after).trans (List.suffix_cons tok (e :: after)))
      · rw [isDegree_other tok next h]
        exact (ih next.length (by omega) next rfl).trans (List.suffix_cons tok next)

theorem acceptExpressionLoop_pass_consumes (lp : TokenList)
    (h : (acceptPlusOrMinus lp).1 ≠ 0) :
    (acceptTerm (acceptPlusOrMinus lp).2).2.length < lp.length := by
  cases lp with
  | nil => simp [acceptPlusOrMinus_nil] at h
  | cons tok next =>
    rw [acceptPlusOrMinus_cons] at h ⊢
    by_cases hop : tok.tt = TokenType.Symbol ∧ (tok.symbol = '+' ∨ tok.symbol = '-')
    · simp only [hop, and_self, if_true]
      have := (acceptTerm_suffix next).length_le
      simp only [List.length_cons]
      omega
    · simp [hop] at h

theorem endsWithIdentifierCaret_cons (tok : Token) (next : TokenList)
    (h : EndsWithIdentifierCaret next) : EndsWithIdentifierCaret (tok :: next) := by
  rcases next with _ | ⟨a, _ | ⟨b, rest⟩⟩
  · exact h.elim
  · exact h.elim
  · exact h

/-- On a stream that does not end in an identifier followed by `^`, the loop of
`checkDegree` returns, with the cursor at the end of the stream. -/
theorem checkDegreeLoop_returns (lp : TokenList) (hne : ¬ EndsWithIdentifierCaret lp)
    (highest counter : Int) :
    ∃ d, checkDegreeLoop highest counter lp = some (d, []) := by
  generalize hn : lp.length = n
  induction n using Nat.strong_induction_on generalizing lp highest counter with
  | _ n ih =>
    cases lp with
    | nil => exact ⟨highest, checkDegreeLoop_nil _ _⟩
    | cons tok next =>
      simp only [List.length_cons] at hn
      have hnext : ¬ EndsWithIdentifierCaret next :=
        fun h => hne (endsWithIdentifierCaret_cons tok next h)
      by_cases hid : tok.tt = TokenType.Identifier
      · cases next with
        | nil => exact ⟨highest, checkDegreeLoop_identifier_end _ _ tok hid⟩
        | cons s r =>
          simp only [List.length_cons] at hn
          have hr : ¬ EndsWithIdentifierCaret r :=
            fun h => hnext (endsWithIdentifierCaret_cons s r h)
          by_cases hs : s.tt = TokenType.Symbol ∧ s.symbol = '^'
          · cases r with
            | nil => exact absurd ⟨hid, hs.1, hs.2⟩ hne
            | cons e r2 =>
              simp only [List.length_cons] at hn
              have hr2 : ¬ EndsWithIdentifierCaret r2 :=
                fun h => hr (endsWithIdentifierCaret_cons e r2 h)
              rw [checkDegreeLoop_identifier_power _ _ tok s e r2 hid hs]
              exact ih r2.length (by omega) r2 hr2 _ _ rfl
          · rw [checkDegreeLoop_identifier_plain _ _ tok s r hid hs]
            exact ih r.length (by omega) r hr _ _ rfl
      · rw [checkDegreeLoop_other _ _ tok next hid]
        exact ih next.length (by omega) next hnext _ _ rfl

theorem not_endsWithIdentifierCaret_of_exponentsWellFormed (lp : TokenList)
    (hw : ExponentsWellFormed lp) : ¬ EndsWithIdentifierCaret lp := by
  induction lp with
  | nil => exact fun h => h
  | cons tok next ih =>
    rcases next with _ | ⟨a, _ | ⟨b, rest⟩⟩
    · exact fun h => h
    · intro h
      exact (hw.2.1 ⟨h.2.1, h.2.2⟩).elim
    · exact ih hw.2

/-- C18, as the code has it: the functions are total, and the cursor each one leaves is
a suffix of the cursor it was given: for `acceptTerm`, `acceptExpression`,
`acceptEquation` (both cursors), `countEquals`, `acceptVariables` and `isDegree` on
every stream, and for `checkDegree` on every stream that does not end in an identifier
followed by `^`, on which it returns. Every pass of the loop of `acceptExpression` that
accepts its `+` or `-` leaves a shorter stream. -/
theorem cursors_are_suffixes (lp lp1 : TokenList) :
    (acceptTerm lp).2 <:+ lp
    ∧ (acceptExpression lp).2 <:+ lp
    ∧ (acceptEquation lp lp1).2.1 <:+ lp
    ∧ (acceptEquation lp lp1).2.2 <:+ lp1
    ∧ (countEquals lp).2 <:+ lp
    ∧ (acceptVariables lp).2 <:+ lp
    ∧ (isDegree lp).2 <:+ lp
    ∧ (¬ EndsWithIdentifierCaret lp → ∃ r, checkDegree lp = some r ∧ r.2 <:+ lp)
    ∧ ((acceptPlusOrMinus lp).1 ≠ 0 →
        (acceptTerm (acceptPlusOrMinus lp).2).2.length < lp.length) := by
  refine ⟨acceptTerm_suffix lp, acceptExpression_suffix lp, (acceptEquation_suffix lp lp1).1,
    (acceptEquation_suffix lp lp1).2, ?_, acceptVariables_suffix lp, isDegree_suffix lp, ?_,
    acceptExpressionLoop_pass_consumes lp⟩
  · rw [countEquals_eq]; exact List.nil_suffix
  · intro hne
    obtain ⟨d, hd⟩ := checkDegreeLoop_returns lp hne 1 0
    exact ⟨(d, []), hd, List.nil_suffix⟩

theorem cursors_are_suffixes_witness :
    ¬ EndsWithIdentifierCaret tokensXSq
    ∧ (acceptPlusOrMinus [mkSymbol '+', mkNumber 3]).1 ≠ 0
    ∧ (∃ r, checkDegree tokensXSq = some r ∧ r.2 <:+ tokensXSq)
    ∧ (acceptTerm (acceptPlusOrMinus [mkSymbol '+', mkNumber 3]).2).2.length
        < [mkSymbol '+', mkNumber 3].length :=
  ⟨by decide, by decide,
    (cursors_are_suffixes tokensXSq tokensXSq).2.2.2.2.2.2.2.1
      (by decide),
    (cursors_are_suffixes [mkSymbol '+', mkNumber 3] []).2.2.2.2.2.2.2.2 (by decide)⟩

/-- C18, counterexample: on the tokens of `x^` the run of `checkDegree` reads `number`
at the end of the stream, past the last token: it does not return with a cursor. -/
theorem checkDegree_reads_past_end_counterexample :
    EndsWithIdentifierCaret tokensXCaret
    ∧ checkDegreeTrace 1 0 tokensXCaret = [(tokensXCaret, some [])]
    ∧ checkDegree tokensXCaret = none :=
  ⟨⟨rfl, rfl, rfl⟩,
    checkDegreeTrace_identifier_power_end 1 0 _ _ rfl ⟨rfl, rfl⟩,
    checkDegreeLoop_identifier_power_end 1 0 _ _ rfl ⟨rfl, rfl⟩⟩

end RecognizeExp
